import Mathlib

/-!
Shallow embedding of the core of `onekey-rag-service` (a retrieval-augmented
question-answering service) together with proofs that settle the frozen
claims C1..C10 about its natural-language specification.

Conventions of the embedding:
* Python strings are `List Char` (code-point sequences, exactly Python's
  `len`/indexing semantics); `String` wrappers are provided where convenient.
* Python regular-expression scans are embedded as explicit character-list
  scanners implementing the exact scanning discipline of `re.finditer` /
  `re.sub` (leftmost match, non-overlapping, move one char on failure) for
  the concrete patterns that occur in the source.
* Fallible code is embedded with `Option`; "swallow all exceptions" blocks
  become total functions over an explicit outcome type.
* `json.loads` (Python standard library, not repository code) is abstracted
  as a parameter `parse : String → Option PyJson`; everything the repository
  itself does with the parsed value is embedded concretely.
-/

namespace OnekeyRag

/-! ## Python string helpers (shared) -/

/-- ASCII whitespace stripped by Python's `str.strip()` (the repository only
strips ASCII / CJK text, where this coincides with Python's behaviour). -/
def pyIsSpace (c : Char) : Bool :=
  c = ' ' || c = '\t' || c = '\n' || c = '\x0d' || c = '\x0b' || c = '\x0c'

/-- Python `str.strip()` on a character list. -/
def pyStrip (l : List Char) : List Char :=
  ((l.dropWhile pyIsSpace).reverse.dropWhile pyIsSpace).reverse

/-- Python `str.strip()` on a `String`. -/
def pyStripS (s : String) : String := ⟨pyStrip s.data⟩

/-- Python `str.lower()` on a character list (ASCII case folding; the
addresses and URLs the repository lowers are ASCII). -/
def pyLower (l : List Char) : List Char := l.map Char.toLower

/-- `clamp_text` from `onekey_rag_service/utils.py`:
`text if len(text) <= max_len else text[: max_len - 1] + "…"`. -/
def clamp_text (text : List Char) (max_len : Nat) : List Char :=
  if text.length ≤ max_len then text else text.take (max_len - 1) ++ ['…']

/-- `clamp_text` on `String`s. -/
def clampTextS (s : String) (maxLen : Nat) : String := ⟨clamp_text s.data maxLen⟩

/-! ## Chunker: address preprocessing (`indexing/chunking.py`) -/

/-- `[a-fA-F0-9]`: one hexadecimal digit as accepted by the address regexes. -/
def isHexChar (c : Char) : Bool :=
  c.isDigit || ('a' ≤ c && c ≤ 'f') || ('A' ≤ c && c ≤ 'F')

/-- Take exactly `n` hex chars from the front; returns (taken, rest). -/
def takeHex : Nat → List Char → Option (List Char × List Char)
  | 0, l => some ([], l)
  | _ + 1, [] => none
  | n + 1, c :: cs =>
    if isHexChar c then (takeHex n cs).map (fun p => (c :: p.1, p.2)) else none

/-- Try to match `0x[a-fA-F0-9]{40}` (with `re.IGNORECASE`, so `0X` too) at
the head of the list; returns (the 42 matched chars, rest). -/
def tryAddrAt : List Char → Option (List Char × List Char)
  | c0 :: c1 :: rest =>
    if c0 = '0' && (c1 = 'x' || c1 = 'X') then
      (takeHex 40 rest).map (fun p => (c0 :: c1 :: p.1, p.2))
    else none
  | _ => none

/-- One step of `re.finditer` for `_CONTRACT_ADDRESS_RE`: leftmost matches,
non-overlapping, scanning resumes after each match (fuel = list length is
always sufficient because every step consumes at least one char). -/
def scanBareAux : Nat → List Char → List (List Char)
  | 0, _ => []
  | _ + 1, [] => []
  | fuel + 1, c :: cs =>
    match tryAddrAt (c :: cs) with
    | some (m, rest) => m :: scanBareAux fuel rest
    | none => scanBareAux fuel cs

/-- All matches of `_CONTRACT_ADDRESS_RE` (`0x[a-fA-F0-9]{40}`, IGNORECASE). -/
def scanBare (l : List Char) : List (List Char) := scanBareAux l.length l

/-- `[^\]]*` followed by `]`: the char class excludes `]`, so the greedy run
is exactly the prefix up to the first `]`; returns (content, rest after `]`). -/
def takeToRBracket : List Char → Option (List Char × List Char)
  | [] => none
  | c :: cs =>
    if c = ']' then some ([], cs)
    else (takeToRBracket cs).map (fun p => (c :: p.1, p.2))

/-- Match one literal char case-insensitively (the link regex carries
`re.IGNORECASE`). -/
def ciChar (c : Char) (l : List Char) : Option (List Char) :=
  match l with
  | x :: xs => if x.toLower = c then some xs else none
  | [] => none

/-- `https?://` under IGNORECASE: `http`, optional `s`, then `://`. -/
def matchScheme (l : List Char) : Option (List Char) :=
  (ciChar 'h' l).bind fun l => (ciChar 't' l).bind fun l =>
  (ciChar 't' l).bind fun l => (ciChar 'p' l).bind fun l =>
    match ciChar 's' l with
    | some l' =>
      -- greedy `s?`: try with the `s` consumed, else backtrack to without
      match (ciChar ':' l').bind fun l => (ciChar '/' l).bind (ciChar '/') with
      | some r => some r
      | none => (ciChar ':' l).bind fun l => (ciChar '/' l).bind (ciChar '/')
    | none => (ciChar ':' l).bind fun l => (ciChar '/' l).bind (ciChar '/')

/-- Greedy `[^)]*` followed by `)`: skip to the first `)` (all skipped chars
are non-`)`), consume it; fails if no `)` remains. -/
def skipToRParen : List Char → Option (List Char)
  | [] => none
  | c :: cs => if c = ')' then some cs else skipToRParen cs

/-- The lazy tail `[^)]*?/(0x[a-fA-F0-9]{40})[^)]*\)` of the Markdown-link
regex: try the continuation at each position (shortest lazy expansion first,
exactly Python's backtracking); the lazily consumed chars must not be `)`.
Returns (the 42 address chars of group 2, rest after the closing `)`). -/
def lazySlashAddr : Nat → List Char → Option (List Char × List Char)
  | 0, _ => none
  | _ + 1, [] => none
  | fuel + 1, c :: cs =>
    let cont : Option (List Char × List Char) :=
      if c = '/' then
        match tryAddrAt cs with
        | some (m, rest2) => (skipToRParen rest2).map (fun r => (m, r))
        | none => none
      else none
    match cont with
    | some r => some r
    | none => if c = ')' then none else lazySlashAddr fuel cs

/-- Try `_MARKDOWN_LINK_ADDRESS_RE`
(`\[([^\]]*)\]\(https?://[^)]*?/(0x[a-fA-F0-9]{40})[^)]*\)`, IGNORECASE)
at the head of the list; returns (group 2, rest after the whole match). -/
def tryLinkAt : List Char → Option (List Char × List Char)
  | '[' :: rest =>
    (takeToRBracket rest).bind fun p =>
      match p.2 with
      | '(' :: rest2 =>
        (matchScheme rest2).bind fun rest3 => lazySlashAddr rest3.length rest3
      | _ => none
  | _ => none

/-- `re.finditer` loop for the Markdown-link regex. -/
def scanLinkAux : Nat → List Char → List (List Char)
  | 0, _ => []
  | _ + 1, [] => []
  | fuel + 1, c :: cs =>
    match tryLinkAt (c :: cs) with
    | some (m, rest) => m :: scanLinkAux fuel rest
    | none => scanLinkAux fuel cs

/-- All group-2 addresses of `_MARKDOWN_LINK_ADDRESS_RE` matches. -/
def scanLink (l : List Char) : List (List Char) := scanLinkAux l.length l

/-- Strict lexicographic order on code points — Python's `<` on strings,
which is what `sorted` uses. -/
def lexLt : List Char → List Char → Bool
  | [], [] => false
  | [], _ :: _ => true
  | _ :: _, [] => false
  | a :: as, b :: bs => if a < b then true else if b < a then false else lexLt as bs

/-- Insert into a `lexLt`-sorted duplicate-free list, skipping duplicates. -/
def insortDedup (x : List Char) : List (List Char) → List (List Char)
  | [] => [x]
  | y :: ys =>
    if lexLt x y then x :: y :: ys
    else if x = y then y :: ys
    else y :: insortDedup x ys

/-- `sorted(set(…))`: Python's set collapses duplicates and `sorted` orders
ascending; the result does not depend on insertion order. -/
def sortedSet (l : List (List Char)) : List (List Char) :=
  l.foldl (fun acc x => insortDedup x acc) []

/-- The lower-cased address set collected by `_preprocess_for_search`,
in the `sorted` emission order: Markdown-link group-2 matches and bare
matches, each lower-cased, deduplicated and sorted. -/
def addressesFound (t : List Char) : List (List Char) :=
  sortedSet ((scanLink t).map pyLower ++ (scanBare t).map pyLower)

/-- `"\n".join(...)`. -/
def joinNL : List (List Char) → List Char
  | [] => []
  | [x] => x
  | x :: y :: ys => x ++ '\n' :: joinNL (y :: ys)

/-- The literal marker line of the synthetic block. -/
def contractMarker : List Char := "\n\n[CONTRACT_ADDRESSES]\n".data

/-- `_preprocess_for_search` from `indexing/chunking.py`: collect the
lower-cased address set; if empty return the text unchanged, else append
`"\n\n[CONTRACT_ADDRESSES]\n" + "\n".join(sorted(addresses))`. -/
def preprocessForSearch (t : List Char) : List Char :=
  let addrs := addressesFound t
  if addrs = [] then t else t ++ contractMarker ++ joinNL addrs

/-- `_preprocess_for_search` on `String`s. -/
def preprocessForSearchS (s : String) : String := ⟨preprocessForSearch s.data⟩

/-! ## Chunker: header-aware splitting (`indexing/chunking.py`)

The repository first tries LangChain's `MarkdownHeaderTextSplitter` and falls
back to the hand-written splitter when the library is unavailable; the claims
cite the hand-written path (`chunk_markdown_by_headers` fallback and
`_split_by_length`), which is what is embedded here. -/

/-- Python `str.splitlines()` worker: accumulate the current line (reversed),
recognise `\r\n`, `\n` and `\r` as terminators, and do not emit an extra
empty line for a trailing terminator. -/
def splitlinesGo : List Char → List Char → List (List Char)
  | cur, [] => [cur.reverse]
  | cur, '\x0d' :: '\n' :: [] => [cur.reverse]
  | cur, '\x0d' :: '\n' :: c :: cs => cur.reverse :: splitlinesGo [] (c :: cs)
  | cur, '\n' :: [] => [cur.reverse]
  | cur, '\n' :: c :: cs => cur.reverse :: splitlinesGo [] (c :: cs)
  | cur, '\x0d' :: [] => [cur.reverse]
  | cur, '\x0d' :: c :: cs =>
    if c = '\n' then
      match cs with
      | [] => [cur.reverse]
      | d :: ds => cur.reverse :: splitlinesGo [] (d :: ds)
    else cur.reverse :: splitlinesGo [] (c :: cs)
  | cur, c :: cs => splitlinesGo (c :: cur) cs

/-- Python `str.splitlines()` (empty string gives no lines). -/
def splitlines : List Char → List (List Char)
  | [] => []
  | c :: cs => splitlinesGo [] (c :: cs)

/-- `re.match(r"^(#{1,3})\s+(.*)$", line)`: up to three `#`, at least one
whitespace char, and the title is the remainder after the greedy `\s+` run
(then `.strip()`-ed by the caller). Returns (header level, stripped title). -/
def headerMatch (l : List Char) : Option (Nat × List Char) :=
  let n := (l.takeWhile (· = '#')).length
  if 1 ≤ n && n ≤ 3 then
    match l.drop n with
    | c :: cs =>
      if pyIsSpace c then some (n, pyStrip ((c :: cs).dropWhile pyIsSpace)) else none
    | [] => none
  else none

/-- `" > ".join(...)` (and any other separator join). -/
def joinSep (sep : List Char) : List (List Char) → List Char
  | [] => []
  | [x] => x
  | x :: y :: ys => x ++ sep ++ joinSep sep (y :: ys)

/-- One emitted chunk: `ChunkItem` from `indexing/chunking.py`. -/
structure ChunkItem where
  section_path : String
  text : String
deriving DecidableEq, Repr

/-- The sliding-window loop of `_split_by_length` (`while start < len(text)`;
window `[start, start+max_chars)`, advance to `end - overlap_chars`).  Fuel
`text.length + 1` is sufficient whenever `max_chars > overlap_chars` (the
defaults are 2400/200), because `start` then strictly increases. -/
def splitLoop (path : List Char) (text : List Char) (maxChars overlapChars : Nat) :
    Nat → Nat → List ChunkItem
  | 0, _ => []
  | fuel + 1, start =>
    if start < text.length then
      let e := min (start + maxChars) text.length
      let part := pyStrip ((text.drop start).take (e - start))
      let here : List ChunkItem :=
        if part = [] then [] else [⟨⟨path⟩, ⟨preprocessForSearch part⟩⟩]
      if e ≥ text.length then here
      else here ++ splitLoop path text maxChars overlapChars fuel (e - overlapChars)
    else []

/-- `_split_by_length` from `indexing/chunking.py`: preprocess the whole
section; emit a single chunk if it fits, else slide a window over the
*original* text, stripping and preprocessing each part. -/
def splitByLength (path : List Char) (text : List Char)
    (maxChars overlapChars : Nat) : List ChunkItem :=
  let processed := preprocessForSearch text
  if processed.length ≤ maxChars then [⟨⟨path⟩, ⟨processed⟩⟩]
  else splitLoop path text maxChars overlapChars (text.length + 1) 0

/-- Accumulator of the header fold: breadcrumb path, lines of the current
section, finished sections. -/
structure HeaderFoldState where
  path : List (List Char)
  cur : List (List Char)
  secs : List (List Char × List (List Char))

/-- `flush()` from `chunk_markdown_by_headers`. -/
def hfFlush (st : HeaderFoldState) : HeaderFoldState :=
  if st.cur = [] then st
  else { st with cur := [], secs := st.secs ++ [(joinSep " > ".data st.path, st.cur)] }

/-- One line of the header fold: headers (matched on the stripped line) flush
the current section and update the breadcrumb (`[:1]`/`[:2]` prefixes), and
the *stripped* header line starts the new section; other lines are appended
verbatim. -/
def hfStep (st : HeaderFoldState) (line : List Char) : HeaderFoldState :=
  match headerMatch (pyStrip line) with
  | some (level, title) =>
    let st := hfFlush st
    let newPath :=
      if level = 1 then [title]
      else if level = 2 then st.path.take 1 ++ [title]
      else st.path.take 2 ++ [title]
    { st with path := newPath, cur := [pyStrip line] }
  | none => { st with cur := st.cur ++ [line] }

/-- `chunk_markdown_by_headers` (hand-written fallback path): fold the lines,
flush, then length-split every non-empty section. -/
def chunkMarkdownByHeaders (markdown : String)
    (maxChars : Nat := 2400) (overlapChars : Nat := 200) : List ChunkItem :=
  let st := (splitlines markdown.data).foldl hfStep ⟨[], [], []⟩
  let st := hfFlush st
  st.secs.foldl
    (fun acc sec =>
      let text := pyStrip (joinNL sec.2)
      if text = [] then acc
      else acc ++ splitByLength sec.1 text maxChars overlapChars)
    []

/-! ### Order lemmas for the sorted address set -/

theorem lexLt_cons_iff {a b : Char} {as bs : List Char} :
    lexLt (a :: as) (b :: bs) = true ↔ a < b ∨ (a = b ∧ lexLt as bs = true) := by
  show (if a < b then true else if b < a then false else lexLt as bs) = true ↔ _
  by_cases h1 : a < b
  · simp [h1]
  · by_cases h2 : b < a
    · rw [if_neg h1, if_pos h2]
      constructor
      · intro h; exact absurd h (by simp)
      · rintro (h | ⟨rfl, _⟩)
        · exact absurd h h1
        · exact absurd h2 h1
    · have hab : a = b := le_antisymm (not_lt.mp h2) (not_lt.mp h1)
      rw [if_neg h1, if_neg h2]
      subst hab
      simp [h1]

theorem lexLt_trans : ∀ {a b c : List Char},
    lexLt a b = true → lexLt b c = true → lexLt a c = true := by
  intro a
  induction a with
  | nil =>
    intro b c hab hbc
    cases b with
    | nil => simp [lexLt] at hab
    | cons y ys =>
      cases c with
      | nil => simp [lexLt] at hbc
      | cons z zs => simp [lexLt]
  | cons x xs ih =>
    intro b c hab hbc
    cases b with
    | nil => simp [lexLt] at hab
    | cons y ys =>
      cases c with
      | nil => simp [lexLt] at hbc
      | cons z zs =>
        rcases lexLt_cons_iff.mp hab with h1 | ⟨rfl, h1⟩ <;>
          rcases lexLt_cons_iff.mp hbc with h2 | ⟨he2, h2⟩
        · exact lexLt_cons_iff.mpr (Or.inl (lt_trans h1 h2))
        · subst he2; exact lexLt_cons_iff.mpr (Or.inl h1)
        · exact lexLt_cons_iff.mpr (Or.inl h2)
        · subst he2; exact lexLt_cons_iff.mpr (Or.inr ⟨rfl, ih h1 h2⟩)

theorem lexLt_total : ∀ (a b : List Char),
    lexLt a b = true ∨ a = b ∨ lexLt b a = true := by
  intro a
  induction a with
  | nil =>
    intro b
    cases b with
    | nil => right; left; rfl
    | cons y ys => left; simp [lexLt]
  | cons x xs ih =>
    intro b
    cases b with
    | nil => right; right; simp [lexLt]
    | cons y ys =>
      rcases lt_trichotomy x y with h | h | h
      · exact Or.inl (lexLt_cons_iff.mpr (Or.inl h))
      · subst h
        rcases ih ys with h | h | h
        · exact Or.inl (lexLt_cons_iff.mpr (Or.inr ⟨rfl, h⟩))
        · exact Or.inr (Or.inl (by rw [h]))
        · exact Or.inr (Or.inr (lexLt_cons_iff.mpr (Or.inr ⟨rfl, h⟩)))
      · exact Or.inr (Or.inr (lexLt_cons_iff.mpr (Or.inl h)))

theorem mem_insortDedup {a x : List Char} :
    ∀ {l : List (List Char)}, a ∈ insortDedup x l ↔ a = x ∨ a ∈ l := by
  intro l
  induction l with
  | nil => simp [insortDedup]
  | cons y ys ih =>
    show a ∈ (if lexLt x y = true then x :: y :: ys
      else if x = y then y :: ys else y :: insortDedup x ys) ↔ _
    by_cases h1 : lexLt x y = true
    · rw [if_pos h1]; simp [List.mem_cons]
    · rw [if_neg h1]
      by_cases h2 : x = y
      · subst h2
        rw [if_pos rfl]
        simp only [List.mem_cons]
        tauto
      · rw [if_neg h2]
        simp only [List.mem_cons, ih]
        tauto

theorem pairwise_insortDedup {x : List Char} :
    ∀ {l : List (List Char)},
      l.Pairwise (fun a b => lexLt a b = true) →
      (insortDedup x l).Pairwise (fun a b => lexLt a b = true) := by
  intro l
  induction l with
  | nil => intro _; simp [insortDedup]
  | cons y ys ih =>
    intro hp
    rcases List.pairwise_cons.mp hp with ⟨hy, hys⟩
    show List.Pairwise _ (if lexLt x y = true then x :: y :: ys
      else if x = y then y :: ys else y :: insortDedup x ys)
    by_cases h1 : lexLt x y = true
    · rw [if_pos h1]
      refine List.pairwise_cons.mpr ⟨?_, hp⟩
      intro z hz
      rcases List.mem_cons.mp hz with rfl | hz
      · exact h1
      · exact lexLt_trans h1 (hy z hz)
    · rw [if_neg h1]
      by_cases h2 : x = y
      · rw [if_pos h2]; exact hp
      · rw [if_neg h2]
        refine List.pairwise_cons.mpr ⟨?_, ih hys⟩
        intro z hz
        rcases mem_insortDedup.mp hz with rfl | hz
        · rcases lexLt_total z y with h | h | h
          · exact absurd h h1
          · exact absurd h h2
          · exact h
        · exact hy z hz

theorem sortedSet_go :
    ∀ (l : List (List Char)) (acc : List (List Char)),
      acc.Pairwise (fun a b => lexLt a b = true) →
      ((l.foldl (fun acc x => insortDedup x acc) acc).Pairwise
          (fun a b => lexLt a b = true) ∧
        ∀ a, a ∈ l.foldl (fun acc x => insortDedup x acc) acc ↔ a ∈ l ∨ a ∈ acc) := by
  intro l
  induction l with
  | nil => intro acc h; simpa using h
  | cons x xs ih =>
    intro acc h
    have h' := pairwise_insortDedup (x := x) h
    rcases ih (insortDedup x acc) h' with ⟨hs, hm⟩
    refine ⟨hs, ?_⟩
    intro a
    rw [List.foldl_cons, hm a, mem_insortDedup]
    simp [List.mem_cons]
    tauto

/-- The collected address list is strictly sorted in Python string order
(hence also duplicate-free). -/
theorem addressesFound_sorted (t : List Char) :
    (addressesFound t).Pairwise (fun a b => lexLt a b = true) :=
  (sortedSet_go _ [] List.Pairwise.nil).1

/-- The collected address list holds exactly the lower-cased regex matches:
Markdown-link group-2 addresses and bare addresses. -/
theorem addressesFound_mem (t : List Char) (a : List Char) :
    a ∈ addressesFound t ↔
      a ∈ (scanLink t).map pyLower ∨ a ∈ (scanBare t).map pyLower := by
  have := (sortedSet_go ((scanLink t).map pyLower ++ (scanBare t).map pyLower)
    [] List.Pairwise.nil).2 a
  simpa [addressesFound, sortedSet, List.mem_append] using this

/-! ### Chunker fixtures (§8 scenario 3 of the spec) -/

/-- The §8 fixture section: `## Addresses` followed by a Markdown
block-explorer link carrying a mixed-case contract address. -/
def fixtureSection : String :=
  "## Addresses\n\n[0xd016...5722](https://etherscan.io/address/0xd0160580158f5574d1c4dAa0F6Dd23Fc6d5B5722)"

/-- The synthetic block the fixture chunk must end with. -/
def fixtureBlock : String :=
  "\n\n[CONTRACT_ADDRESSES]\n0xd0160580158f5574d1c4daa0f6dd23fc6d5b5722"

/-! ### Claims C1 and C6 -/

set_option maxRecDepth 100000 in
/-- C1, counterexample.  Address preprocessing is *not* idempotent: on a
text that is a bare contract address, a second application re-finds the
addresses inside the appended `[CONTRACT_ADDRESSES]` block and appends a
second identical block, so `f (f t) ≠ f t` (and in particular a text already
ending with a `[CONTRACT_ADDRESSES]` block *does* gain a second block). -/
theorem preprocess_not_idempotent :
    preprocessForSearchS
        (preprocessForSearchS "0xaaaaaaaaaaaaaaaaaaaaaaaaaaaaaaaaaaaaaaaa") ≠
      preprocessForSearchS "0xaaaaaaaaaaaaaaaaaaaaaaaaaaaaaaaaaaaaaaaa" ∧
    preprocessForSearchS
        (preprocessForSearchS "0xaaaaaaaaaaaaaaaaaaaaaaaaaaaaaaaaaaaaaaaa") =
      "0xaaaaaaaaaaaaaaaaaaaaaaaaaaaaaaaaaaaaaaaa\n\n[CONTRACT_ADDRESSES]\n0xaaaaaaaaaaaaaaaaaaaaaaaaaaaaaaaaaaaaaaaa\n\n[CONTRACT_ADDRESSES]\n0xaaaaaaaaaaaaaaaaaaaaaaaaaaaaaaaaaaaaaaaa" := by
  constructor
  · decide
  · decide

set_option maxRecDepth 100000 in
/-- C1, amended.  `_preprocess_for_search` is idempotent exactly on the
texts in which it finds no contract address: such texts are returned
unchanged, so a second application changes nothing; on any text with an
extracted address a second application appends a second block (see the
counterexample). -/
theorem preprocess_idempotent_on_address_free_texts
    (t : String) (h : addressesFound t.data = []) :
    preprocessForSearchS (preprocessForSearchS t) = preprocessForSearchS t := by
  have h1 : preprocessForSearchS t = t := by
    simp [preprocessForSearchS, preprocessForSearch, h]
  rw [h1]
  exact h1

/-- C1, witness for the amended theorem at an address-free text. -/
theorem preprocess_idempotent_on_address_free_texts_witness :
    addressesFound "no addresses here".data = [] ∧
      preprocessForSearchS (preprocessForSearchS "no addresses here") =
        preprocessForSearchS "no addresses here" :=
  ⟨by decide, preprocess_idempotent_on_address_free_texts "no addresses here" (by decide)⟩

set_option maxRecDepth 100000 in
/-- C6.  Address preprocessing collects the lower-cased set of contract
addresses (bare `0x[a-fA-F0-9]{40}` matches and Markdown block-explorer link
addresses): an empty set leaves the text unchanged; a non-empty set appends
exactly the trailing block `"\n\n[CONTRACT_ADDRESSES]\n"` followed by the
addresses joined one per line, strictly sorted (hence duplicate-free) in
Python string order; the collected list holds exactly the lower-cased
matches of the two regexes; and on the §8 fixture section the chunker emits
exactly one chunk whose text ends with the expected block. -/
theorem preprocess_block_and_fixture_chunk :
    (∀ t : String, addressesFound t.data = [] → preprocessForSearchS t = t) ∧
    (∀ t : String, addressesFound t.data ≠ [] →
      (preprocessForSearchS t).data =
        t.data ++ contractMarker ++ joinNL (addressesFound t.data)) ∧
    (∀ t : String,
      (addressesFound t.data).Pairwise (fun a b => lexLt a b = true)) ∧
    (∀ (t : String) (a : List Char),
      a ∈ addressesFound t.data ↔
        a ∈ (scanLink t.data).map pyLower ∨ a ∈ (scanBare t.data).map pyLower) ∧
    ((chunkMarkdownByHeaders fixtureSection).length = 1 ∧
      ∀ c ∈ chunkMarkdownByHeaders fixtureSection,
        fixtureBlock.data.isSuffixOf c.text.data = true) := by
  refine ⟨?_, ?_, ?_, ?_, ?_, ?_⟩
  · intro t h
    simp [preprocessForSearchS, preprocessForSearch, h]
  · intro t h
    simp [preprocessForSearchS, preprocessForSearch, h]
  · intro t
    exact addressesFound_sorted t.data
  · intro t a
    exact addressesFound_mem t.data a
  · decide
  · decide

set_option maxRecDepth 100000 in
/-- C6, witness: the two guarded conjuncts discharged at concrete inputs
(an address-free text, and a text holding one mixed-case address). -/
theorem preprocess_block_and_fixture_chunk_witness :
    preprocessForSearchS "plain text" = "plain text" ∧
      (preprocessForSearchS "0xD0160580158F5574D1C4DAA0F6DD23FC6D5B5722").data =
        "0xD0160580158F5574D1C4DAA0F6DD23FC6D5B5722".data ++ contractMarker ++
          joinNL (addressesFound "0xD0160580158F5574D1C4DAA0F6DD23FC6D5B5722".data) :=
  ⟨preprocess_block_and_fixture_chunk.1 "plain text" (by decide),
    preprocess_block_and_fixture_chunk.2.1 "0xD0160580158F5574D1C4DAA0F6DD23FC6D5B5722"
      (by decide)⟩

/-! ## RAG pipeline: candidate merging (`rag/pipeline.py`, `_merge_candidates`)

`RetrievedChunk` itself lives in `rag/pgvector_store.py`, which is not among
the provided sources; the record is modelled from the spec's retrieved-chunk
record and its uses in `pipeline.py`/`reranker.py` (only `chunk_id` and
`score` matter to the merge).  Scores are Python floats compared with `<`/`>`
only, embedded as rationals. -/

structure RetrievedChunk where
  chunk_id : Int
  score : ℚ
  url : String
  title : String
  section_path : String
  text : String
deriving DecidableEq, Repr

/-- One `by_id[c.chunk_id]` update of the Python dict: insertion order is
preserved, an existing key is replaced in place, and the replacement happens
only when the new score is strictly greater. -/
def updByMax : List RetrievedChunk → RetrievedChunk → List RetrievedChunk
  | [], c => [c]
  | x :: xs, c =>
    if x.chunk_id = c.chunk_id then (if c.score > x.score then c else x) :: xs
    else x :: updByMax xs c

/-- The `by_id` dict of `_merge_candidates` after inserting all candidates of
all groups in order, read back in insertion order (`list(by_id.values())`). -/
def dedupMax (cs : List RetrievedChunk) : List RetrievedChunk :=
  cs.foldl updByMax []

/-- Stable descending insertion: place `x` before the first element whose
score is not strictly greater.  `foldr insertByScore []` is the unique stable
sort by score descending — exactly Python's
`merged.sort(key=lambda x: x.score, reverse=True)`. -/
def insertByScore (x : RetrievedChunk) : List RetrievedChunk → List RetrievedChunk
  | [] => [x]
  | y :: ys => if y.score > x.score then y :: insertByScore x ys else x :: y :: ys

/-- Stable sort by score descending. -/
def sortByScoreDesc (l : List RetrievedChunk) : List RetrievedChunk :=
  l.foldr insertByScore []

/-- The merged list before the top-K cut. -/
def mergedAll (candidates : List (List RetrievedChunk)) : List RetrievedChunk :=
  sortByScoreDesc (dedupMax candidates.flatten)

/-- `_merge_candidates` from `rag/pipeline.py`: max score per `chunk_id`
(first occurrence kept in place on score ties), stable sort by score
descending, first `k`. -/
def mergeCandidates (candidates : List (List RetrievedChunk)) (k : Nat) :
    List RetrievedChunk :=
  (mergedAll candidates).take k

/-! ### Lemmas about the dict accumulation -/

/-- The invariant carried through `dedupMax`'s fold: every accumulator entry
is one of the seen candidates and maximal among seen candidates with its id,
every seen id is represented, and accumulator ids are distinct. -/
def DedupInv (seen acc : List RetrievedChunk) : Prop :=
  (∀ a ∈ acc, a ∈ seen ∧
    ∀ d ∈ seen, d.chunk_id = a.chunk_id → d.score ≤ a.score) ∧
  (∀ d ∈ seen, ∃ a ∈ acc, a.chunk_id = d.chunk_id) ∧
  (acc.map RetrievedChunk.chunk_id).Nodup

theorem updByMax_of_not_mem {c : RetrievedChunk} :
    ∀ {l : List RetrievedChunk},
      c.chunk_id ∉ l.map RetrievedChunk.chunk_id → updByMax l c = l ++ [c] := by
  intro l
  induction l with
  | nil => intro _; rfl
  | cons x xs ih =>
    intro h
    have hx : x.chunk_id ≠ c.chunk_id := by
      intro he
      exact h (by simp [← he])
    have hxs : c.chunk_id ∉ xs.map RetrievedChunk.chunk_id := by
      intro hm
      exact h (by simp [List.mem_cons, hm])
    simp [updByMax, hx, ih hxs]

theorem updByMax_of_mem {c x : RetrievedChunk} :
    ∀ {l : List RetrievedChunk},
      (l.map RetrievedChunk.chunk_id).Nodup → x ∈ l → x.chunk_id = c.chunk_id →
      ∃ l1 l2, l = l1 ++ x :: l2 ∧
        updByMax l c = l1 ++ (if c.score > x.score then c else x) :: l2 := by
  intro l
  induction l with
  | nil => intro _ hx; exact absurd hx (List.not_mem_nil x)
  | cons y ys ih =>
    intro hnd hx hid
    rcases List.mem_cons.mp hx with rfl | hx'
    · exact ⟨[], ys, rfl, by simp [updByMax, hid]⟩
    · have hyid : y.chunk_id ≠ c.chunk_id := by
        intro he
        have : x.chunk_id ∈ ys.map RetrievedChunk.chunk_id :=
          List.mem_map_of_mem _ hx'
        rw [hid, ← he] at this
        exact (List.nodup_cons.mp hnd).1 this
      rcases ih (List.nodup_cons.mp hnd).2 hx' hid with ⟨l1, l2, he, hu⟩
      exact ⟨y :: l1, l2, by rw [he, List.cons_append], by simp [updByMax, hyid, hu]⟩

/-- In a list whose mapped ids are distinct, the elements around a chosen
split point all have ids different from the split element's id. -/
theorem nodup_ids_ne {l1 l2 : List RetrievedChunk} {x : RetrievedChunk}
    (hnd : ((l1 ++ x :: l2).map RetrievedChunk.chunk_id).Nodup) :
    ∀ a ∈ l1 ++ l2, a.chunk_id ≠ x.chunk_id := by
  intro a ha he
  rw [List.map_append, List.map_cons] at hnd
  have h2 := List.nodup_middle.mp hnd
  have hx := (List.nodup_cons.mp h2).1
  apply hx
  rw [← List.map_append]
  exact he ▸ List.mem_map_of_mem _ ha

theorem dedupInv_step {seen acc : List RetrievedChunk} (c : RetrievedChunk)
    (h : DedupInv seen acc) : DedupInv (seen ++ [c]) (updByMax acc c) := by
  rcases h with ⟨hmax, hcover, hnd⟩
  by_cases hc : c.chunk_id ∈ acc.map RetrievedChunk.chunk_id
  · rcases List.mem_map.mp hc with ⟨x, hx, hxid⟩
    rcases updByMax_of_mem hnd hx hxid with ⟨l1, l2, he, hu⟩
    set w := if c.score > x.score then c else x with hw
    have hwid : w.chunk_id = x.chunk_id := by
      rw [hw]; split
      · exact hxid.symm
      · rfl
    have hxw : x.score ≤ w.score := by
      rw [hw]; split
      · exact le_of_lt (by assumption)
      · exact le_refl _
    have hcw : c.score ≤ w.score := by
      rw [hw]; split
      · exact le_refl _
      · exact le_of_not_lt (by assumption)
    have hsplit : ∀ a ∈ l1 ++ l2, a.chunk_id ≠ x.chunk_id :=
      nodup_ids_ne (he ▸ hnd)
    have hmem_mid : ∀ (y a : RetrievedChunk), a ∈ l1 ++ y :: l2 →
        a = y ∨ a ∈ l1 ++ l2 := by
      intro y a ha
      rcases List.mem_append.mp ha with h1 | h1
      · exact Or.inr (List.mem_append.mpr (Or.inl h1))
      · rcases List.mem_cons.mp h1 with h1 | h1
        · exact Or.inl h1
        · exact Or.inr (List.mem_append.mpr (Or.inr h1))
    have hmid_mem : ∀ (y a : RetrievedChunk), a ∈ l1 ++ l2 →
        a ∈ l1 ++ y :: l2 := by
      intro y a ha
      rcases List.mem_append.mp ha with h1 | h1
      · exact List.mem_append.mpr (Or.inl h1)
      · exact List.mem_append.mpr (Or.inr (List.mem_cons.mpr (Or.inr h1)))
    refine ⟨?_, ?_, ?_⟩
    · intro a ha
      rw [hu] at ha
      rcases hmem_mid w a ha with rfl | ha'
      · constructor
        · rw [hw]; split
          · exact List.mem_append.mpr (Or.inr (by simp))
          · exact List.mem_append.mpr (Or.inl (hmax x hx).1)
        · intro d hd hdid
          rcases List.mem_append.mp hd with hd' | hd'
          · exact le_trans ((hmax x hx).2 d hd' (by rw [hdid, hwid])) hxw
          · have : d = c := by simpa using hd'
            subst this
            exact hcw
      · have haacc : a ∈ acc := he ▸ hmid_mem x a ha'
        refine ⟨List.mem_append.mpr (Or.inl (hmax a haacc).1), ?_⟩
        intro d hd hdid
        rcases List.mem_append.mp hd with hd' | hd'
        · exact (hmax a haacc).2 d hd' hdid
        · have : d = c := by simpa using hd'
          subst this
          exact absurd (hdid.symm.trans hxid.symm) (hsplit a ha')
    · intro d hd
      rcases List.mem_append.mp hd with hd' | hd'
      · rcases hcover d hd' with ⟨a, haacc, haid⟩
        rw [he] at haacc
        rcases hmem_mid x a haacc with rfl | ha'
        · exact ⟨w, by rw [hu]; simp, by rw [hwid, haid]⟩
        · exact ⟨a, by rw [hu]; exact hmid_mem w a ha', haid⟩
      · have : d = c := by simpa using hd'
        subst this
        exact ⟨w, by rw [hu]; simp, by rw [hwid, hxid]⟩
    · rw [hu]
      have hids : (l1 ++ w :: l2).map RetrievedChunk.chunk_id =
          (l1 ++ x :: l2).map RetrievedChunk.chunk_id := by
        simp [List.map_append, hwid]
      rw [hids, ← he]
      exact hnd
  · rw [updByMax_of_not_mem hc]
    refine ⟨?_, ?_, ?_⟩
    · intro a ha
      rcases List.mem_append.mp ha with ha' | ha'
      · refine ⟨List.mem_append.mpr (Or.inl (hmax a ha').1), ?_⟩
        intro d hd hdid
        rcases List.mem_append.mp hd with hd' | hd'
        · exact (hmax a ha').2 d hd' hdid
        · have : d = c := by simpa using hd'
          subst this
          exact absurd (hdid ▸ List.mem_map_of_mem RetrievedChunk.chunk_id ha') hc
      · have hac : a = c := by simpa using ha'
        refine ⟨List.mem_append.mpr (Or.inr (by simp [hac])), ?_⟩
        intro d hd hdid
        rcases List.mem_append.mp hd with hd' | hd'
        · rcases hcover d hd' with ⟨b, hbacc, hbid⟩
          have hbc : b.chunk_id = c.chunk_id := by rw [hbid, hdid, hac]
          exact absurd (hbc ▸ List.mem_map_of_mem RetrievedChunk.chunk_id hbacc) hc
        · have hdc : d = c := by simpa using hd'
          simp [hdc, hac]
    · intro d hd
      rcases List.mem_append.mp hd with hd' | hd'
      · rcases hcover d hd' with ⟨a, haacc, haid⟩
        exact ⟨a, List.mem_append.mpr (Or.inl haacc), haid⟩
      · have hdc : d = c := by simpa using hd'
        exact ⟨c, List.mem_append.mpr (Or.inr (by simp)), by rw [hdc]⟩
    · rw [List.map_append]
      simp only [List.map_cons, List.map_nil]
      rw [List.nodup_append]
      exact ⟨hnd, List.nodup_singleton _, by
        intro b hb hb'
        have : b = c.chunk_id := by simpa using hb'
        subst this
        exact hc hb⟩

/-- The invariant holds of the full fold. -/
theorem dedupInv_fold :
    ∀ (cs seen acc : List RetrievedChunk), DedupInv seen acc →
      DedupInv (seen ++ cs) (cs.foldl updByMax acc) := by
  intro cs
  induction cs with
  | nil => intro seen acc h; simpa using h
  | cons c cs ih =>
    intro seen acc h
    have h1 := dedupInv_step c h
    have h2 := ih (seen ++ [c]) (updByMax acc c) h1
    simpa [List.append_assoc] using h2

/-- `dedupMax` satisfies its invariant against the full input list. -/
theorem dedupMax_inv (cs : List RetrievedChunk) : DedupInv cs (dedupMax cs) := by
  have h0 : DedupInv [] [] := by
    refine ⟨?_, ?_, ?_⟩ <;> simp
  simpa [dedupMax] using dedupInv_fold cs [] [] h0

/-! ### Lemmas about the stable descending sort -/

theorem insertByScore_perm (x : RetrievedChunk) :
    ∀ (l : List RetrievedChunk), List.Perm (insertByScore x l) (x :: l) := by
  intro l
  induction l with
  | nil => simp [insertByScore]
  | cons y ys ih =>
    show List.Perm (if y.score > x.score then y :: insertByScore x ys else x :: y :: ys) _
    by_cases h : y.score > x.score
    · rw [if_pos h]
      exact ((ih.cons y).trans (List.Perm.swap x y ys))
    · rw [if_neg h]

theorem sortByScoreDesc_perm (l : List RetrievedChunk) :
    List.Perm (sortByScoreDesc l) l := by
  induction l with
  | nil => simp [sortByScoreDesc]
  | cons x xs ih =>
    show List.Perm (insertByScore x (sortByScoreDesc xs)) _
    exact (insertByScore_perm x _).trans (ih.cons x)

theorem pairwise_insertByScore {x : RetrievedChunk} :
    ∀ {l : List RetrievedChunk},
      l.Pairwise (fun a b => b.score ≤ a.score) →
      (insertByScore x l).Pairwise (fun a b => b.score ≤ a.score) := by
  intro l
  induction l with
  | nil => intro _; simp [insertByScore]
  | cons y ys ih =>
    intro hp
    rcases List.pairwise_cons.mp hp with ⟨hy, hys⟩
    show List.Pairwise _ (if y.score > x.score then y :: insertByScore x ys
      else x :: y :: ys)
    by_cases h : y.score > x.score
    · rw [if_pos h]
      refine List.pairwise_cons.mpr ⟨?_, ih hys⟩
      intro z hz
      have hz' : z ∈ x :: ys := (insertByScore_perm x ys).mem_iff.mp hz
      rcases List.mem_cons.mp hz' with rfl | hz''
      · exact le_of_lt h
      · exact hy z hz''
    · rw [if_neg h]
      refine List.pairwise_cons.mpr ⟨?_, hp⟩
      intro z hz
      rcases List.mem_cons.mp hz with rfl | hz'
      · exact le_of_not_lt h
      · exact le_trans (hy z hz') (le_of_not_lt h)

theorem sortByScoreDesc_sorted (l : List RetrievedChunk) :
    (sortByScoreDesc l).Pairwise (fun a b => b.score ≤ a.score) := by
  induction l with
  | nil => simp [sortByScoreDesc]
  | cons x xs ih => exact pairwise_insertByScore ih

theorem filter_insertByScore (x : RetrievedChunk) (q : ℚ) :
    ∀ (l : List RetrievedChunk),
      (insertByScore x l).filter (fun c => decide (c.score = q)) =
        if x.score = q then x :: l.filter (fun c => decide (c.score = q))
        else l.filter (fun c => decide (c.score = q)) := by
  intro l
  induction l with
  | nil =>
    by_cases hx : x.score = q <;> simp [insertByScore, List.filter, hx]
  | cons y ys ih =>
    show (if y.score > x.score then y :: insertByScore x ys
      else x :: y :: ys).filter _ = _
    by_cases h : y.score > x.score
    · rw [if_pos h]
      by_cases hy : y.score = q
      · by_cases hx : x.score = q
        · exact absurd h (by rw [hx, hy]; exact lt_irrefl q)
        · simp [List.filter, hy, hx, ih]
      · simp [List.filter, hy, ih]
    · rw [if_neg h]
      by_cases hx : x.score = q
      · simp [List.filter, hx]
      · simp [List.filter, hx]

/-- Stability of the descending sort, phrased by score classes: filtering any
single score value commutes with sorting, i.e. candidates of equal score keep
their relative order. -/
theorem filter_sortByScoreDesc (q : ℚ) :
    ∀ (l : List RetrievedChunk),
      (sortByScoreDesc l).filter (fun c => decide (c.score = q)) =
        l.filter (fun c => decide (c.score = q)) := by
  intro l
  induction l with
  | nil => rfl
  | cons x xs ih =>
    show (insertByScore x (sortByScoreDesc xs)).filter _ = _
    rw [filter_insertByScore]
    by_cases hx : x.score = q
    · simp [List.filter, hx, ih]
    · simp [List.filter, hx, ih]

/-! ### Claim C2 -/

/-- C2, counterexample.  Two merged candidates with equal scores are *not*
ordered higher-`chunk_id`-first: on one group holding ids 1 and 2 with equal
scores, the merge returns id 1 (the lower id, in first-occurrence order)
first, not `[2, 1]` as the claim's tie-break demands. -/
theorem merge_candidates_tie_not_by_chunk_id :
    (mergeCandidates [[⟨1, 1, "", "", "", ""⟩, ⟨2, 1, "", "", "", ""⟩]] 2).map
        RetrievedChunk.chunk_id = [1, 2] ∧
      (RetrievedChunk.score ⟨1, 1, "", "", "", ""⟩ =
        RetrievedChunk.score ⟨2, 1, "", "", "", ""⟩) ∧
      ([1, 2] : List Int) ≠ [2, 1] := by
  refine ⟨by decide, by decide, by decide⟩

/-- C2, amended.  The merge keeps, for each `chunk_id` occurring in any
group, one candidate that occurs in the groups and whose score is maximal
among all candidates with that id; output ids are distinct; the output is
sorted by score descending and is the first `k` of the merged list; every
input id is represented in the merged list; and candidates of equal score
keep their dict insertion order — the first-occurrence order of their ids in
the concatenated groups — rather than being ordered by higher `chunk_id`. -/
theorem merge_candidates_amended (groups : List (List RetrievedChunk)) (k : Nat) :
    (∀ c ∈ mergeCandidates groups k,
      (∃ g ∈ groups, c ∈ g) ∧
        ∀ g ∈ groups, ∀ d ∈ g, d.chunk_id = c.chunk_id → d.score ≤ c.score) ∧
    ((mergeCandidates groups k).map RetrievedChunk.chunk_id).Nodup ∧
    (mergeCandidates groups k).Pairwise (fun a b => b.score ≤ a.score) ∧
    (mergeCandidates groups k).length ≤ k ∧
    mergeCandidates groups k = (mergedAll groups).take k ∧
    (∀ g ∈ groups, ∀ d ∈ g, ∃ c ∈ mergedAll groups, c.chunk_id = d.chunk_id) ∧
    (∀ q : ℚ, (mergedAll groups).filter (fun c => decide (c.score = q)) =
      (dedupMax groups.flatten).filter (fun c => decide (c.score = q))) := by
  have hinv := dedupMax_inv groups.flatten
  have hperm := sortByScoreDesc_perm (dedupMax groups.flatten)
  have hmem_merged : ∀ c, c ∈ mergedAll groups ↔ c ∈ dedupMax groups.flatten := by
    intro c
    exact hperm.mem_iff
  refine ⟨?_, ?_, ?_, ?_, rfl, ?_, ?_⟩
  · intro c hc
    have hc1 : c ∈ mergedAll groups := List.take_subset k _ hc
    have hc2 : c ∈ dedupMax groups.flatten := (hmem_merged c).mp hc1
    rcases hinv.1 c hc2 with ⟨hcf, hcmax⟩
    constructor
    · exact List.mem_flatten.mp hcf
    · intro g hg d hd hdid
      exact hcmax d (List.mem_flatten.mpr ⟨g, hg, hd⟩) hdid
  · have hnd : ((mergedAll groups).map RetrievedChunk.chunk_id).Nodup :=
      ((hperm.map RetrievedChunk.chunk_id).nodup_iff).mpr hinv.2.2
    have hsub : ((mergeCandidates groups k).map RetrievedChunk.chunk_id).Sublist
        ((mergedAll groups).map RetrievedChunk.chunk_id) :=
      (List.take_sublist k (mergedAll groups)).map RetrievedChunk.chunk_id
    exact hnd.sublist hsub
  · exact (sortByScoreDesc_sorted _).sublist (List.take_sublist k _)
  · exact List.length_take_le k _
  · intro g hg d hd
    rcases hinv.2.1 d (List.mem_flatten.mpr ⟨g, hg, hd⟩) with ⟨a, ha, haid⟩
    exact ⟨a, (hmem_merged a).mpr ha, haid⟩
  · intro q
    exact filter_sortByScoreDesc q _

/-- C2, witness for the amended theorem: on two groups both holding id 1,
the merged candidate for id 1 occurs in the groups and dominates both
occurrences. -/
theorem merge_candidates_amended_witness :
    (∃ g ∈ [[(⟨1, 1, "", "", "", ""⟩ : RetrievedChunk)], [⟨1, 2, "", "", "", ""⟩]],
      (⟨1, 2, "", "", "", ""⟩ : RetrievedChunk) ∈ g) ∧
      ∀ g ∈ [[(⟨1, 1, "", "", "", ""⟩ : RetrievedChunk)], [⟨1, 2, "", "", "", ""⟩]],
        ∀ d ∈ g, d.chunk_id = (⟨1, 2, "", "", "", ""⟩ : RetrievedChunk).chunk_id →
          d.score ≤ (⟨1, 2, "", "", "", ""⟩ : RetrievedChunk).score :=
  (merge_candidates_amended
    [[(⟨1, 1, "", "", "", ""⟩ : RetrievedChunk)], [⟨1, 2, "", "", "", ""⟩]] 1).1
    ⟨1, 2, "", "", "", ""⟩ (by decide)

/-! ## JSON values and the repository's JSON plumbing

`json.loads` is Python standard library, not repository code: theorems
abstract it as `parse : String → Option PyJson`.  Everything the repository
itself does around it (`_strip_code_fences`, `_extract_json_object`,
`json.dumps` output shapes) is embedded concretely. -/

inductive PyJson where
  | null
  | bool (b : Bool)
  | num (n : Int)
  | str (s : String)
  | arr (items : List PyJson)
  | obj (fields : List (String × PyJson))

/-- `dict.get(key)` on a parsed object (Python dict keys are unique; the
first binding models the dict entry). -/
def jsonGet (fields : List (String × PyJson)) (key : String) : Option PyJson :=
  match fields with
  | [] => none
  | kv :: rest => if kv.1 = key then some kv.2 else jsonGet rest key

/-- `json.dumps` string escaping (`ensure_ascii=False`): escape `"` and `\`,
name the common control chars, `\u00XX` for other chars below 0x20, keep
everything else raw. -/
def jsonEscapeChar (c : Char) : List Char :=
  if c = '"' then ['\\', '"']
  else if c = '\\' then ['\\', '\\']
  else if c = '\n' then ['\\', 'n']
  else if c = '\x0d' then ['\\', 'r']
  else if c = '\t' then ['\\', 't']
  else if c.val < 32 then
    '\\' :: 'u' :: '0' :: '0' ::
      [(Nat.digitChar (c.val.toNat / 16)), (Nat.digitChar (c.val.toNat % 16))]
  else [c]

def jsonEscape (l : List Char) : List Char := l.flatMap jsonEscapeChar

mutual

/-- `json.dumps(..., ensure_ascii=False)` with Python's default separators
`", "` and `": "`. -/
def pyJsonDumps : PyJson → List Char
  | .null => "null".data
  | .bool true => "true".data
  | .bool false => "false".data
  | .num n => (toString n).data
  | .str s => '"' :: (jsonEscape s.data ++ ['"'])
  | .arr items => '[' :: (pyJsonDumpsArr items ++ [']'])
  | .obj fields => '{' :: (pyJsonDumpsObj fields ++ ['}'])

def pyJsonDumpsArr : List PyJson → List Char
  | [] => []
  | [x] => pyJsonDumps x
  | x :: y :: ys => pyJsonDumps x ++ ", ".data ++ pyJsonDumpsArr (y :: ys)

def pyJsonDumpsObj : List (String × PyJson) → List Char
  | [] => []
  | [kv] => '"' :: (jsonEscape kv.1.data ++ ['"'] ++ ": ".data ++ pyJsonDumps kv.2)
  | kv :: kv2 :: rest =>
    ('"' :: (jsonEscape kv.1.data ++ ['"'] ++ ": ".data ++ pyJsonDumps kv.2)) ++
      ", ".data ++ pyJsonDumpsObj (kv2 :: rest)

end

/-- `_strip_code_fences` (identical copies in `rag/pipeline.py` and
`rag/conversation.py`): strip; if the text starts with three backticks drop
through the first newline (or keep the whole text when there is none) and
drop a trailing fence; strip again. -/
def stripCodeFences (t0 : List Char) : List Char :=
  let t := pyStrip t0
  if t = [] then []
  else if t.take 3 = ['`', '`', '`'] then
    let t1 := if t.contains '\n' then (t.dropWhile (· ≠ '\n')).drop 1 else t
    let t2 :=
      if 3 ≤ t1.length ∧ t1.drop (t1.length - 3) = ['`', '`', '`'] then
        t1.take (t1.length - 3)
      else t1
    pyStrip t2
  else t

/-- `_extract_json_object`: strip fences; slice from the first `{` through
the last `}` when both exist in that order (then strip), else return the
fence-stripped text. -/
def extractJsonObject (text : List Char) : List Char :=
  let t := stripCodeFences text
  if t = [] then []
  else
    let s := (t.takeWhile (· ≠ '{')).length
    let erev := (t.reverse.takeWhile (· ≠ '}')).length
    if s < t.length ∧ erev < t.length ∧ s < t.length - 1 - erev then
      pyStrip ((t.drop s).take (t.length - 1 - erev - s + 1))
    else t

def extractJsonObjectS (s : String) : String := ⟨extractJsonObject s.data⟩

/-- The fixed recovery object of `_ensure_json_object`:
`{"error": "invalid_json", "message": clamp(content.strip(), 2000)}`. -/
def errorJson (content : String) : String :=
  ⟨pyJsonDumps (.obj [("error", .str "invalid_json"),
    ("message", .str ⟨clamp_text (pyStrip content.data) 2000⟩)])⟩

/-- `_ensure_json_object` from `rag/pipeline.py`, with `json.loads`
abstracted as `parse`: extract the `{…}` region; on a parsed dict re-dump
it, on another parsed value wrap it as `{"data": …}`, and on an empty
extract or a parse failure emit the fixed error object.  The function is
total: the recovery never escapes as an error. -/
def ensureJsonObject (parse : String → Option PyJson) (content : String) : String :=
  let raw := extractJsonObjectS content
  if raw.data ≠ [] then
    match parse raw with
    | some (.obj fields) => ⟨pyJsonDumps (.obj fields)⟩
    | some j => ⟨pyJsonDumps (.obj [("data", j)])⟩
    | none => errorJson content
  else errorJson content

/-! ## Conversation compaction (`rag/conversation.py`) -/

/-- Python `str.strip(chars)` for an explicit character set. -/
def pyStripChars (chars : List Char) (l : List Char) : List Char :=
  ((l.dropWhile (chars.contains ·)).reverse.dropWhile (chars.contains ·)).reverse

/-- The compaction result record (`ConversationCompaction`). -/
structure ConversationCompaction where
  retrieval_query : String
  memory_summary : Option String
  used_llm : Bool
  raw : Option PyJson

/-- Lines 140–160 of `compact_conversation`, taking the outcome of
`json.loads(_extract_json_object(raw_text))` as input: a parse failure or a
non-object falls back to the raw question with no summary; an object uses a
non-empty string `"query"` clamped to 220 chars (after `strip`,
`strip('"')`, `strip("'")`) and a non-empty string `"summary"` clamped to
1400 chars. -/
def compactFromParse (question : String) (data : Option PyJson) :
    ConversationCompaction :=
  match data with
  | none => ⟨question, none, true, none⟩
  | some j =>
    match j with
    | .obj fields =>
      let rq :=
        match jsonGet fields "query" with
        | some (.str q) =>
          if pyStrip q.data ≠ [] then
            clampTextS ⟨pyStripChars ['\x27'] (pyStripChars ['"'] (pyStrip q.data))⟩ 220
          else question
        | _ => question
      let ms :=
        match jsonGet fields "summary" with
        | some (.str s) =>
          if pyStrip s.data ≠ [] then some (clampTextS ⟨pyStrip s.data⟩ 1400) else none
        | _ => none
      ⟨rq, ms, true, some j⟩
    | _ => ⟨question, none, true, some j⟩

/-- Outcome of the single chat call made by the compactor. -/
inductive ChatOutcome where
  | raised
  | content (s : String)
deriving DecidableEq, Repr

/-- `compact_conversation` from the chat call on: a raised chat call escapes
the function (`Except.error`); otherwise the content is fence-stripped,
brace-extracted, parsed and folded by `compactFromParse`. -/
def compactConversationResult (parse : String → Option PyJson) (question : String)
    (outcome : ChatOutcome) : Except Unit ConversationCompaction :=
  match outcome with
  | .raised => .error ()
  | .content s => .ok (compactFromParse question (parse (extractJsonObjectS s)))

/-- The `try/except` around `compact_conversation` in `prepare_rag`
(lines 367–387): any exception is swallowed and the pipeline proceeds with
the raw question, no summary, `used_compaction = False`.  Total by
construction: a compaction failure never propagates out of the pipeline. -/
def prepareCompaction (parse : String → Option PyJson) (question : String)
    (outcome : ChatOutcome) : String × Option String × Bool :=
  match compactConversationResult parse question outcome with
  | .error _ => (question, none, false)
  | .ok c => (c.retrieval_query, c.memory_summary, c.used_llm)

/-! ## Strict-kb gate of `prepare_rag` (`rag/pipeline.py`, lines 496–522) -/

/-- Modelled from the spec: `KbAllocation` (`rag/kb_allocation.py` is not
among the provided sources) — "a per-knowledge-base retrieval budget
`{kb_id, top_k}`"; `top_k` may be absent, and `prepare_rag` reads it as
`int(a.top_k or 0)`. -/
structure KbAllocation where
  kb_id : String
  top_k : Option Int
deriving DecidableEq, Repr

/-- `int(a.top_k or 0)`: `None` (and `0` itself) collapse to `0`. -/
def topKVal (a : KbAllocation) : Int := a.top_k.getD 0

/-- `_resolve_default_prompts`: the (system prompt, no-sources answer) pair
keyed by the requested model family; `not requested_model` is Python
truthiness, so both `None` and `""` select the `onekey-docs` default. -/
def resolveDefaultPrompts (requested_model : Option String) : String × String :=
  if requested_model = some "onekey-docs" ∨ requested_model = none ∨
      requested_model = some "" then
    ("你是 OneKey 开发者文档助手。你必须严格基于提供的“文档片段”回答，不要编造。",
     "我在 OneKey 开发者文档中没有检索到直接相关的内容。你可以换一种问法，或提供更具体的关键词（如 SDK 名称/方法名/报错信息）。")
  else if requested_model = some "tx-analyzer" then
    ("你是 Web3 交易分析知识库助手。你必须严格基于提供的“知识库片段”回答，不要编造。",
     "当前 tx-analyzer 知识库未检索到相关内容，请补充知识库文档或调整交易问题。")
  else
    ("你是知识库助手。你必须严格基于提供的“知识库片段”回答，不要编造。",
     "当前知识库未检索到相关内容，请补充文档或调整问题。")

/-- What the strict-kb gate decides: a direct no-retrieval answer, or
retrieval over the filtered allocations. -/
inductive PrepareOutcome where
  | direct (answer : String) (sources : List String)
  | retrieve (allocations : List KbAllocation)
deriving DecidableEq, Repr

/-- Lines 496–522 of `prepare_rag`: drop allocations with
`int(top_k or 0) <= 0`; under `strict_kb` with no surviving allocation,
return the model family's fixed no-sources answer with empty sources and
perform no retrieval (`answer_with_rag` then returns `direct_answer` and
`prepared.sources` unchanged, lines 870–871). -/
def prepareStrictKbGate (strict_kb : Bool) (kb_allocations : Option (List KbAllocation))
    (requested_model : Option String) : PrepareOutcome :=
  let allocations := (kb_allocations.getD []).filter (fun a => 0 < topKVal a)
  if strict_kb ∧ allocations = [] then
    .direct (resolveDefaultPrompts requested_model).2 []
  else .retrieve allocations

/-! ### Claims C4, C7, C8, C10 -/

theorem clamp_text_length_le (l : List Char) (n : Nat) (hn : 1 ≤ n) :
    (clamp_text l n).length ≤ n := by
  unfold clamp_text
  split
  · assumption
  · simp only [List.length_append, List.length_take, List.length_cons,
      List.length_nil]
    omega

/-- C4.  With `response_format = json_object`, the answer framer always
returns the dump of a JSON object: a parsed dict is re-dumped, any other
parsed value is wrapped as `{"data": …}`, and an empty brace-extract or a
parse failure yields exactly
`{"error": "invalid_json", "message": clamp(content.strip(), 2000)}`; the
recovery is a total function (no error branch), so it never reaches the
caller as an error (`answer_with_rag` line 914 returns it as the answer). -/
theorem ensure_json_object_spec (parse : String → Option PyJson) (content : String) :
    (∃ fields, ensureJsonObject parse content = ⟨pyJsonDumps (.obj fields)⟩) ∧
    (parse (extractJsonObjectS content) = none →
      ensureJsonObject parse content = errorJson content) ∧
    ((extractJsonObjectS content).data = [] →
      ensureJsonObject parse content = errorJson content) ∧
    errorJson content = ⟨pyJsonDumps (.obj [("error", .str "invalid_json"),
      ("message", .str ⟨clamp_text (pyStrip content.data) 2000⟩)])⟩ := by
  refine ⟨?_, ?_, ?_, rfl⟩
  · unfold ensureJsonObject
    by_cases hr : (extractJsonObjectS content).data = []
    · simp only [hr, ne_eq, not_true_eq_false, if_false]
      exact ⟨_, rfl⟩
    · simp only [ne_eq, hr, not_false_eq_true, if_true]
      rcases hp : parse (extractJsonObjectS content) with _ | j
      · exact ⟨_, rfl⟩
      · cases j <;> exact ⟨_, rfl⟩
  · intro hp
    unfold ensureJsonObject
    by_cases hr : (extractJsonObjectS content).data = []
    · simp [hr]
    · simp [hr, hp]
  · intro hr
    unfold ensureJsonObject
    simp [hr]

/-- C4, witness: a parser that always fails on a brace-free content yields
exactly the fixed error object. -/
theorem ensure_json_object_spec_witness :
    ensureJsonObject (fun _ => none) "hello" = errorJson "hello" ∧
      errorJson "hello" =
        "\x7b\"error\": \"invalid_json\", \"message\": \"hello\"\x7d" :=
  ⟨(ensure_json_object_spec (fun _ => none) "hello").2.1 rfl, by decide⟩

/-- C7.  With `strict_kb` and every supplied allocation carrying
`top_k = 0`, the filtered allocation list is empty and `prepare_rag` returns
the model family's fixed no-sources answer with `sources = []`, performing
no retrieval (the gate's `direct` branch returns before any search). -/
theorem strict_kb_zero_allocations_no_sources
    (allocs : List KbAllocation) (model : Option String)
    (h : ∀ a ∈ allocs, a.top_k = some 0) :
    prepareStrictKbGate true (some allocs) model =
      .direct (resolveDefaultPrompts model).2 [] := by
  have hfil : allocs.filter (fun a => 0 < topKVal a) = [] := by
    rw [List.filter_eq_nil_iff]
    intro a ha
    simp [topKVal, h a ha]
  simp [prepareStrictKbGate, hfil]

/-- C7, witness: two zero-`top_k` allocations under `onekey-docs`. -/
theorem strict_kb_zero_allocations_no_sources_witness :
    prepareStrictKbGate true (some [⟨"kb1", some 0⟩, ⟨"kb2", some 0⟩])
        (some "onekey-docs") =
      .direct (resolveDefaultPrompts (some "onekey-docs")).2 [] :=
  strict_kb_zero_allocations_no_sources _ _ (by decide)

/-- C8, counterexample.  A chat output that is a valid JSON object lacking
`"query"` but carrying a non-empty `"summary"` falls back to the raw
question, yet the memory summary *is* included — refuting the claim that no
memory summary is included whenever the query field is missing.  (The last
conjunct checks that the repository's own brace extraction passes such an
output through unchanged.) -/
theorem compaction_summary_without_query_counterexample :
    (compactFromParse "原问题"
        (some (.obj [("summary", .str "背景约束")]))).retrieval_query = "原问题" ∧
    (compactFromParse "原问题"
        (some (.obj [("summary", .str "背景约束")]))).memory_summary = some "背景约束" ∧
    some "背景约束" ≠ (none : Option String) ∧
    extractJsonObjectS "\x7b\"summary\": \"背景约束\"\x7d" =
      "\x7b\"summary\": \"背景约束\"\x7d" := by
  refine ⟨rfl, rfl, by decide, by decide⟩

/-- C8, amended.  If the chat call raises, the pipeline wrapper swallows the
exception and uses the raw question with no summary; if the output is
unparseable or parses to a non-object, compaction returns the raw question
with no summary; if it parses to an object lacking a non-empty string
`"query"`, the retrieval query is the raw question — but a non-empty string
`"summary"` in that object is still included.  The wrapper is total, so a
compaction failure never propagates out of the pipeline. -/
theorem compaction_fallback_amended (parse : String → Option PyJson)
    (question : String) :
    (prepareCompaction parse question .raised = (question, none, false)) ∧
    (∀ s, parse (extractJsonObjectS s) = none →
      prepareCompaction parse question (.content s) = (question, none, true)) ∧
    (∀ s j, parse (extractJsonObjectS s) = some j → (∀ fields, j ≠ .obj fields) →
      prepareCompaction parse question (.content s) = (question, none, true)) ∧
    (∀ fields, (∀ q, jsonGet fields "query" = some (.str q) → pyStrip q.data = []) →
      (compactFromParse question (some (.obj fields))).retrieval_query = question) := by
  refine ⟨rfl, ?_, ?_, ?_⟩
  · intro s h
    simp [prepareCompaction, compactConversationResult, h, compactFromParse]
  · intro s j hj hobj
    simp only [prepareCompaction, compactConversationResult, hj]
    cases j with
    | obj fields => exact absurd rfl (hobj fields)
    | null => rfl
    | bool b => rfl
    | num n => rfl
    | str s2 => rfl
    | arr items => rfl
  · intro fields hq
    simp only [compactFromParse]
    rcases h2 : jsonGet fields "query" with _ | j
    · rfl
    · cases j with
      | str q =>
        have := hq q h2
        simp [this]
      | null => rfl
      | bool b => rfl
      | num n => rfl
      | arr items => rfl
      | obj f2 => rfl

/-- C8, witness: the guarded conjuncts of the amended theorem discharged at
a failing parser, and at an object whose `"query"` is whitespace-only. -/
theorem compaction_fallback_amended_witness :
    prepareCompaction (fun _ => none) "q0" (.content "not json") =
        ("q0", none, true) ∧
      (compactFromParse "q0"
        (some (.obj [("query", .str "  ")]))).retrieval_query = "q0" :=
  ⟨(compaction_fallback_amended (fun _ => none) "q0").2.1 "not json" rfl,
    (compaction_fallback_amended (fun _ => none) "q0").2.2.2
      [("query", .str "  ")] (by
        intro q h
        have h0 : jsonGet [("query", PyJson.str "  ")] "query" =
            some (.str "  ") := rfl
        rw [h0] at h
        have h1 : "  " = q := by
          injection h with h2
          injection h2
        rw [← h1]
        decide)⟩

/-- The `memory_summary` component of `compactFromParse` on an object,
by definitional unfolding. -/
theorem compactFromParse_summary (question : String)
    (fields : List (String × PyJson)) :
    (compactFromParse question (some (.obj fields))).memory_summary =
      (match jsonGet fields "summary" with
      | some (.str s) =>
        if pyStrip s.data ≠ [] then some (clampTextS ⟨pyStrip s.data⟩ 1400) else none
      | _ => none) := rfl

/-- The `retrieval_query` component of `compactFromParse` on an object,
by definitional unfolding. -/
theorem compactFromParse_query (question : String)
    (fields : List (String × PyJson)) :
    (compactFromParse question (some (.obj fields))).retrieval_query =
      (match jsonGet fields "query" with
      | some (.str q) =>
        if pyStrip q.data ≠ [] then
          clampTextS ⟨pyStripChars ['\x27'] (pyStripChars ['"'] (pyStrip q.data))⟩ 220
        else question
      | _ => question) := rfl

/-- C10.  Whenever compaction succeeds with a non-empty rewritten query, the
retrieval query actually used is the rewritten query — stripped of
whitespace and surrounding quotes — clamped to at most 220 characters, and
the memory summary, when present, is clamped to at most 1400 characters:
truncations the spec does not state. -/
theorem compaction_truncates_query_and_summary
    (question : String) (fields : List (String × PyJson)) (q : String)
    (hq : jsonGet fields "query" = some (.str q)) (hne : pyStrip q.data ≠ []) :
    (compactFromParse question (some (.obj fields))).retrieval_query =
      clampTextS ⟨pyStripChars ['\x27'] (pyStripChars ['"'] (pyStrip q.data))⟩ 220 ∧
    (compactFromParse question (some (.obj fields))).retrieval_query.length ≤ 220 ∧
    (∀ ms, (compactFromParse question (some (.obj fields))).memory_summary = some ms →
      ms.length ≤ 1400) := by
  have hrq : (compactFromParse question (some (.obj fields))).retrieval_query =
      clampTextS ⟨pyStripChars ['\x27'] (pyStripChars ['"'] (pyStrip q.data))⟩ 220 := by
    rw [compactFromParse_query, hq]
    simp [hne]
  refine ⟨hrq, ?_, ?_⟩
  · rw [hrq]
    exact clamp_text_length_le _ 220 (by omega)
  · intro ms hms
    rw [compactFromParse_summary] at hms
    rcases h2 : jsonGet fields "summary" with _ | j
    · rw [h2] at hms
      simp at hms
    · rw [h2] at hms
      cases j with
      | str s2 =>
        by_cases h3 : pyStrip s2.data = []
        · simp [h3] at hms
        · simp only [ne_eq, h3, not_false_eq_true, if_true,
            Option.some.injEq] at hms
          rw [← hms]
          exact clamp_text_length_le _ 1400 (by omega)
      | null => simp at hms
      | bool b => simp at hms
      | num n => simp at hms
      | arr items => simp at hms
      | obj f2 => simp at hms

/-- C10, witness: a rewritten query of 230 `a`s is used truncated to 220
characters. -/
theorem compaction_truncates_query_and_summary_witness :
    (compactFromParse "q0" (some (.obj [("query",
        .str ⟨List.replicate 230 'a'⟩)]))).retrieval_query =
      clampTextS ⟨pyStripChars ['\x27'] (pyStripChars ['"']
        (pyStrip (⟨List.replicate 230 'a'⟩ : String).data))⟩ 220 ∧
    (compactFromParse "q0" (some (.obj [("query",
        .str ⟨List.replicate 230 'a'⟩)]))).retrieval_query.length ≤ 220 :=
  ⟨(compaction_truncates_query_and_summary "q0"
      [("query", .str ⟨List.replicate 230 'a'⟩)] ⟨List.replicate 230 'a'⟩
      rfl (by decide)).1,
    (compaction_truncates_query_and_summary "q0"
      [("query", .str ⟨List.replicate 230 'a'⟩)] ⟨List.replicate 230 'a'⟩
      rfl (by decide)).2.1⟩

/-! ## Job worker (`worker.py`) -/

/-- The `_meta` sub-dict maintained by `_merge_job_meta` (the source only
ever writes these three keys). -/
structure JobMeta where
  worker_id : String
  attempts : Nat
  updated_at : Nat
deriving DecidableEq, Repr

/-- A job's `progress` JSON: the handler's payload (opaque to the
transition logic) plus the `_meta` sub-dict. -/
structure JobProgress where
  meta : Option JobMeta
  body : List (String × Int)
deriving DecidableEq, Repr

/-- One row of the jobs table, restricted to the fields `_process_job`
touches (`type`/`payload` select the handler, which is abstracted as the
outcome below). -/
structure Job where
  status : String
  error : String
  started_at : Option Nat
  finished_at : Option Nat
  progress : JobProgress
deriving DecidableEq, Repr

/-- What the dispatched handler did: returned a progress dict, or raised
(with `str(e)` as the error text). -/
inductive JobOutcome where
  | success (progress : JobProgress)
  | failure (err : String)
deriving DecidableEq, Repr

/-- `_merge_job_meta`: copy the progress dict and overwrite `_meta` with
`worker_id`, `attempts` and `updated_at`. -/
def mergeJobMeta (p : JobProgress) (worker_id : String) (attempts : Nat)
    (now : Nat) : JobProgress :=
  { body := p.body, meta := some ⟨worker_id, attempts, now⟩ }

/-- `int(meta.get("attempts") or 0)`: an absent `_meta` (and a zero value)
reads as 0. -/
def metaAttemptsOr0 (p : JobProgress) : Nat :=
  match p.meta with
  | some m => m.attempts
  | none => 0

/-- `int(meta.get("attempts") or 1)`: absent or zero reads as 1. -/
def metaAttemptsOr1 (p : JobProgress) : Nat :=
  match p.meta with
  | some m => if m.attempts = 0 then 1 else m.attempts
  | none => 1

/-- `_process_job` from `worker.py`, with the handler dispatch abstracted as
`outcome`: a non-`running` job is left untouched; otherwise the attempt
counter is incremented and written into `progress._meta`; on success the job
becomes `succeeded` with `finished_at` set and the handler progress merged;
on an exception the error is recorded and the job is requeued while
`attempts < max_attempts`, else it becomes `failed` with `finished_at` set
and an empty progress merged (`progress or {}` — the handler raised before
returning one). -/
def processJob (job : Job) (outcome : JobOutcome) (worker_id : String)
    (max_attempts : Int) (now : Nat) : Job :=
  if job.status ≠ "running" then job
  else
    let attempts := metaAttemptsOr0 job.progress + 1
    let job1 := { job with progress := mergeJobMeta job.progress worker_id attempts now }
    let attempts2 := metaAttemptsOr1 job1.progress
    match outcome with
    | .success p =>
      { job1 with
        status := "succeeded",
        finished_at := some now,
        progress := mergeJobMeta p worker_id attempts2 now }
    | .failure err =>
      let job2 := { job1 with error := err }
      if 0 < max_attempts ∧ (attempts2 : Int) < max_attempts then
        { job2 with status := "queued" }
      else
        { job2 with
          status := "failed",
          finished_at := some now,
          progress := mergeJobMeta ⟨none, []⟩ worker_id attempts2 now }

/-- `_claim_next_job`'s per-job transition (the queue selection is SQL):
`queued → running`, `started_at = now`, `error` cleared. -/
def claimJob (j : Job) (now : Nat) : Job :=
  { j with status := "running", started_at := some now, error := "" }

/-! ### Claim C9 -/

/-- Success shape of `_process_job` on a running job. -/
theorem processJob_success_eq (job : Job) (p : JobProgress) (w : String)
    (m : Int) (now : Nat) (h : job.status = "running") :
    processJob job (.success p) w m now =
      { job with
        status := "succeeded",
        finished_at := some now,
        progress := mergeJobMeta p w (metaAttemptsOr0 job.progress + 1) now } := by
  simp [processJob, h, mergeJobMeta, metaAttemptsOr1]

/-- Failure shape of `_process_job` on a running job: requeue below
`max_attempts`, else terminally failed. -/
theorem processJob_failure_eq (job : Job) (err : String) (w : String)
    (m : Int) (now : Nat) (h : job.status = "running") :
    processJob job (.failure err) w m now =
      if 0 < m ∧ ((metaAttemptsOr0 job.progress + 1 : Nat) : Int) < m then
        { job with
          status := "queued",
          error := err,
          progress := mergeJobMeta job.progress w (metaAttemptsOr0 job.progress + 1) now }
      else
        { job with
          status := "failed",
          error := err,
          finished_at := some now,
          progress := mergeJobMeta ⟨none, []⟩ w (metaAttemptsOr0 job.progress + 1) now } := by
  simp [processJob, h, mergeJobMeta, metaAttemptsOr1]

/-- C9.  On handler success a running job transitions to `succeeded` with
`finished_at` set; on a handler exception it transitions `running → queued`
with the error recorded while the recorded attempt count is below
`max_attempts` (`WORKER_MAX_ATTEMPTS`, default 3), else `running → failed`
with `finished_at` set; and in the §8 retry scenario a fresh job that fails
once carries `progress._meta.attempts = 1` in state `queued`, then after a
re-claim and a successful run finishes `succeeded` with `attempts = 2`. -/
theorem worker_job_transitions (job : Job) (worker_id : String)
    (max_attempts : Int) (now : Nat) (h : job.status = "running") :
    (∀ p, (processJob job (.success p) worker_id max_attempts now).status =
        "succeeded" ∧
      (processJob job (.success p) worker_id max_attempts now).finished_at =
        some now ∧
      (processJob job (.success p) worker_id max_attempts now).progress =
        mergeJobMeta p worker_id (metaAttemptsOr0 job.progress + 1) now) ∧
    (∀ err,
      (0 < max_attempts ∧
          ((metaAttemptsOr0 job.progress + 1 : Nat) : Int) < max_attempts →
        (processJob job (.failure err) worker_id max_attempts now).status =
            "queued" ∧
          (processJob job (.failure err) worker_id max_attempts now).error = err ∧
          (processJob job (.failure err) worker_id max_attempts now).finished_at =
            job.finished_at ∧
          (processJob job (.failure err) worker_id max_attempts now).progress.meta =
            some ⟨worker_id, metaAttemptsOr0 job.progress + 1, now⟩) ∧
      (¬(0 < max_attempts ∧
          ((metaAttemptsOr0 job.progress + 1 : Nat) : Int) < max_attempts) →
        (processJob job (.failure err) worker_id max_attempts now).status =
            "failed" ∧
          (processJob job (.failure err) worker_id max_attempts now).finished_at =
            some now ∧
          (processJob job (.failure err) worker_id max_attempts now).error = err)) ∧
    (∀ (p : JobProgress) (t1 t2 t3 : Nat) (e : String),
      ((processJob ⟨"running", "", some t1, none, ⟨none, []⟩⟩
          (.failure e) worker_id 3 t1).status = "queued" ∧
        (processJob ⟨"running", "", some t1, none, ⟨none, []⟩⟩
          (.failure e) worker_id 3 t1).progress.meta = some ⟨worker_id, 1, t1⟩ ∧
        (processJob ⟨"running", "", some t1, none, ⟨none, []⟩⟩
          (.failure e) worker_id 3 t1).error = e ∧
        (processJob ⟨"running", "", some t1, none, ⟨none, []⟩⟩
          (.failure e) worker_id 3 t1).finished_at = none) ∧
      (processJob (claimJob (processJob ⟨"running", "", some t1, none, ⟨none, []⟩⟩
          (.failure e) worker_id 3 t1) t2) (.success p) worker_id 3 t3).status =
        "succeeded" ∧
      (processJob (claimJob (processJob ⟨"running", "", some t1, none, ⟨none, []⟩⟩
          (.failure e) worker_id 3 t1) t2) (.success p) worker_id 3 t3).finished_at =
        some t3 ∧
      (processJob (claimJob (processJob ⟨"running", "", some t1, none, ⟨none, []⟩⟩
          (.failure e) worker_id 3 t1) t2) (.success p) worker_id 3 t3).progress.meta =
        some ⟨worker_id, 2, t3⟩) := by
  refine ⟨?_, ?_, ?_⟩
  · intro p
    rw [processJob_success_eq job p worker_id max_attempts now h]
    exact ⟨rfl, rfl, rfl⟩
  · intro err
    constructor
    · intro hc
      rw [processJob_failure_eq job err worker_id max_attempts now h, if_pos hc]
      exact ⟨rfl, rfl, rfl, rfl⟩
    · intro hn
      rw [processJob_failure_eq job err worker_id max_attempts now h, if_neg hn]
      exact ⟨rfl, rfl, rfl⟩
  · intro p t1 t2 t3 e
    have h1 := processJob_failure_eq ⟨"running", "", some t1, none, ⟨none, []⟩⟩
      e worker_id 3 t1 rfl
    rw [if_pos (by norm_num [metaAttemptsOr0])] at h1
    have h1' : processJob ⟨"running", "", some t1, none, ⟨none, []⟩⟩
        (.failure e) worker_id 3 t1 =
        ⟨"queued", e, some t1, none, ⟨some ⟨worker_id, 1, t1⟩, []⟩⟩ := by
      rw [h1]
      simp [mergeJobMeta, metaAttemptsOr0]
    have hc : claimJob (⟨"queued", e, some t1, none,
        ⟨some ⟨worker_id, 1, t1⟩, []⟩⟩ : Job) t2 =
        ⟨"running", "", some t2, none, ⟨some ⟨worker_id, 1, t1⟩, []⟩⟩ := rfl
    have h2 := processJob_success_eq
      ⟨"running", "", some t2, none, ⟨some ⟨worker_id, 1, t1⟩, []⟩⟩
      p worker_id 3 t3 rfl
    refine ⟨⟨?_, ?_, ?_, ?_⟩, ?_, ?_, ?_⟩
    · rw [h1']
    · rw [h1']
    · rw [h1']
    · rw [h1']
    · rw [h1', hc, h2]
    · rw [h1', hc, h2]
    · rw [h1', hc, h2]
      simp [mergeJobMeta, metaAttemptsOr0]

/-- C9, witness: the general transitions discharged on a concrete running
job with one previous attempt under the default `max_attempts = 3`. -/
theorem worker_job_transitions_witness :
    (processJob ⟨"running", "", some 5, none, ⟨some ⟨"w", 1, 5⟩, []⟩⟩
        (.failure "boom") "w" 3 6).status = "queued" ∧
    (processJob ⟨"running", "", some 5, none, ⟨some ⟨"w", 1, 5⟩, []⟩⟩
        (.success ⟨none, [("pages", 4)]⟩) "w" 3 6).status = "succeeded" :=
  ⟨((worker_job_transitions ⟨"running", "", some 5, none, ⟨some ⟨"w", 1, 5⟩, []⟩⟩
      "w" 3 6 rfl).2.1 "boom").1 (by norm_num [metaAttemptsOr0]) |>.1,
    ((worker_job_transitions ⟨"running", "", some 5, none, ⟨some ⟨"w", 1, 5⟩, []⟩⟩
      "w" 3 6 rfl).1 ⟨none, [("pages", 4)]⟩).1⟩

/-! ## Contract-address index (`services/contract_index.py`,
`api/contracts.py`) -/

/-- Python's `in` on strings: substring containment. -/
def containsSub (needle : List Char) : List Char → Bool
  | [] => needle.isEmpty
  | c :: t => needle.isPrefixOf (c :: t) || containsSub needle t

/-- `CONTRACT_ADDRESS_RE.match(s)`: Python `re.match` anchors at the start
only — it succeeds whenever the string *begins* with `0x` + 40 hex chars,
regardless of what follows. -/
def reMatchAddrPrefix (l : List Char) : Bool :=
  match tryAddrAt l with
  | some _ => true
  | none => false

/-- The invariant the claim states: the string is *exactly*
`^0x[0-9a-f]{40}$` (40 lower-case hex chars after `0x`). -/
def isFullLowerAddress (l : List Char) : Bool :=
  match l with
  | '0' :: 'x' :: rest =>
    rest.length = 40 &&
      rest.all (fun c => c.isDigit || ('a' ≤ c && c ≤ 'f'))
  | _ => false

/-- `PROTOCOL_URL_PATTERNS`, in source (dict insertion) order. -/
def protocolUrlPatterns : List (String × String) :=
  [("aave.com", "Aave"), ("docs.aave.com", "Aave"),
   ("docs.uniswap.org", "Uniswap"), ("uniswap.org", "Uniswap"),
   ("docs.compound.finance", "Compound"), ("compound.finance", "Compound"),
   ("curve.fi", "Curve"), ("docs.curve.fi", "Curve"),
   ("lido.fi", "Lido"), ("docs.lido.fi", "Lido"),
   ("docs.makerdao.com", "MakerDAO"), ("makerdao.com", "MakerDAO"),
   ("docs.balancer.fi", "Balancer"), ("balancer.fi", "Balancer"),
   ("docs.1inch.io", "1inch"), ("1inch.io", "1inch"),
   ("docs.sushi.com", "SushiSwap"), ("sushi.com", "SushiSwap"),
   ("docs.yearn.fi", "Yearn"), ("yearn.fi", "Yearn"),
   ("docs.synthetix.io", "Synthetix"), ("synthetix.io", "Synthetix"),
   ("docs.chain.link", "Chainlink"), ("chain.link", "Chainlink"),
   ("docs.convexfinance.com", "Convex"), ("convexfinance.com", "Convex"),
   ("docs.frax.finance", "Frax"), ("frax.finance", "Frax"),
   ("docs.pendle.finance", "Pendle"), ("pendle.finance", "Pendle"),
   ("docs.gmx.io", "GMX"), ("gmx.io", "GMX")]

/-- `extract_protocol_from_url`: substring-match the lowered URL against the
pattern table in order; first hit wins. -/
def extract_protocol_from_url (url : String) : Option String :=
  if url.data = [] then none
  else
    (protocolUrlPatterns.find?
      (fun p => containsSub p.1.data (pyLower url.data))).map (·.2)

/-- The `ContractInfo` record built by `build_contract_info_from_chunk`. -/
structure ContractInfo where
  address : String
  protocol : String
  protocol_version : String
  contract_type : String
  contract_name : String
  source_url : String
  source_kb_id : String
  confidence : ℚ
  chain_id : Int
deriving DecidableEq, Repr

/-- `build_contract_info_from_chunk`, parameterized over the two pure text
extractors `extract_version_from_text` (the `V(\d+)` regex family) and
`extract_contract_type_from_chunk` (the four per-line patterns): they only
fill `protocol_version` / `contract_type` / `confidence` and never touch the
address, so every theorem below holds for *all* such extractors. -/
def build_contract_info_from_chunk
    (extractVersion : String → String)
    (extractType : String → String → Option String)
    (chunk_text chunk_url chunk_kb_id address : String) : Option ContractInfo :=
  match extract_protocol_from_url chunk_url with
  | none => none
  | some protocol =>
    if protocol.data = [] then none
    else
      let version :=
        let v := extractVersion chunk_url
        if v.data = [] then extractVersion ⟨chunk_text.data.take 500⟩ else v
      let ctype := extractType chunk_text address
      some ⟨⟨pyLower address.data⟩, protocol, version, ctype.getD "", "",
        chunk_url, chunk_kb_id, if ctype.isSome then 9/10 else 7/10, 1⟩

/-- Modelled from the spec: one row of the `ContractIndex` table (its ORM
declaration, the newer `onekey_rag_service/models.py`, is not among the
provided sources).  Spec §3 lists the columns `(address lowercased unique,
protocol, protocol_version, contract_type, contract_name, source_url,
source_kb, confidence, chain_id, meta, updated_at)`; §6 requires only
per-row unique constraints and upsert-on-conflict of the relational store,
stating no length or format constraint on the stored address string. -/
structure ContractIndexRow where
  address : String
  protocol : String
  protocol_version : String
  contract_type : String
  contract_name : String
  source_url : String
  source_kb_id : String
  confidence : ℚ
  chain_id : Int
  updated_at : Nat
deriving DecidableEq, Repr

/-- `upsert_contract_info`: lower-case and strip the address, then
insert-or-conflict-update on the unique address key (all fields plus
`updated_at` are overwritten on conflict). -/
def upsert_contract_info (store : List ContractIndexRow) (info : ContractInfo)
    (now : Nat) : List ContractIndexRow :=
  let addr : String := ⟨pyStrip (pyLower info.address.data)⟩
  let row : ContractIndexRow :=
    ⟨addr, info.protocol, info.protocol_version, info.contract_type,
      info.contract_name, info.source_url, info.source_kb_id, info.confidence,
      info.chain_id, now⟩
  if store.any (fun r => r.address = addr) then
    store.map (fun r => if r.address = addr then row else r)
  else store ++ [row]

/-- `get_contract_info`: lower-case and strip, validate with the unanchored
`re.match`, then select by exact address equality. -/
def get_contract_info (store : List ContractIndexRow) (address : String) :
    Option ContractIndexRow :=
  let al := pyStrip (pyLower address.data)
  if reMatchAddrPrefix al then store.find? (fun r => r.address.data = al)
  else none

/-- One row of the chunk/page join consumed by the reverse lookup. -/
structure ChunkRow where
  chunk_text : String
  url : String
  kb_id : String
deriving DecidableEq, Repr

/-- `_rag_reverse_lookup` from `api/contracts.py`: `LIKE`-filter the chunks
containing the address (limit 5), build contract info from the first
candidate that succeeds, auto-learn it into the index when requested, and
return it.  Returns the updated store and the found info. -/
def rag_reverse_lookup (extractVersion : String → String)
    (extractType : String → String → Option String)
    (chunks : List ChunkRow) (store : List ContractIndexRow)
    (address : String) (auto_learn : Bool) (now : Nat) :
    List ContractIndexRow × Option ContractInfo :=
  let cands := (chunks.filter
    (fun c => containsSub address.data (pyLower c.chunk_text.data))).take 5
  match cands.findSome? (fun c =>
    build_contract_info_from_chunk extractVersion extractType
      c.chunk_text c.url c.kb_id address) with
  | none => (store, none)
  | some info =>
    (if auto_learn then upsert_contract_info store info now else store, some info)

/-- The HTTP-visible outcome of `GET /api/v1/contracts/{address}`. -/
inductive ContractApiResult where
  | badRequest
  | fromIndex (row : ContractIndexRow)
  | fromRag (info : ContractInfo)
  | notFound
deriving DecidableEq, Repr

/-- `get_contract` from `api/contracts.py`: lower-case/strip the path
address, validate it with the *unanchored* `re.match` (400 on failure), try
the index, then the RAG reverse lookup with auto-learn.  Returns the result
and the possibly-updated store. -/
def get_contract (extractVersion : String → String)
    (extractType : String → String → Option String)
    (chunks : List ChunkRow) (store : List ContractIndexRow)
    (address : String) (auto_learn : Bool) (now : Nat) :
    ContractApiResult × List ContractIndexRow :=
  let al : String := ⟨pyStrip (pyLower address.data)⟩
  if ¬ reMatchAddrPrefix al.data then (.badRequest, store)
  else
    match get_contract_info store al with
    | some row => (.fromIndex row, store)
    | none =>
      match rag_reverse_lookup extractVersion extractType chunks store al
          auto_learn now with
      | (store2, some info) => (.fromRag info, store2)
      | (store2, none) => (.notFound, store2)

/-! ### Claim C5 -/

/-- A 43-character address: `0x`, 40 hex chars, then a trailing `g`.  The
unanchored `re.match` validation accepts it because its first 42 characters
form a well-formed address prefix. -/
def badAddress : String := "0xaaaaaaaaaaaaaaaaaaaaaaaaaaaaaaaaaaaaaaaag"

/-- A chunk whose text contains `badAddress` verbatim, hosted on an Aave
documentation URL, so the reverse lookup attributes it to a protocol. -/
def aaveChunk : ChunkRow :=
  ⟨badAddress, "https://docs.aave.com/addresses", "kb1"⟩

set_option maxRecDepth 200000 in
/-- C5, failing-input evaluation.  `GET /api/v1/contracts/0x<40×a>g` with
`auto_learn` passes the API's format validation (Python `re.match` is not
anchored at the end), reaches the RAG reverse lookup, and — for *every*
version/contract-type extractor — auto-learns a `ContractIndex` row whose
address is the full 43-character string: lower-case (that half of the
claimed invariant holds) but *not* matching `^0x[0-9a-f]{40}$`, refuting the
claimed invariant on the code as written. -/
theorem contract_api_stores_invalid_address (eV : String → String)
    (eT : String → String → Option String) :
    (∃ info, (get_contract eV eT [aaveChunk] [] badAddress true 0).1 =
      .fromRag info) ∧
    ((get_contract eV eT [aaveChunk] [] badAddress true 0).2.map
      ContractIndexRow.address) = [badAddress] ∧
    isFullLowerAddress badAddress.data = false ∧
    pyLower badAddress.data = badAddress.data ∧
    reMatchAddrPrefix (pyStrip (pyLower badAddress.data)) = true := by
  refine ⟨⟨_, rfl⟩, rfl, by decide, by decide, by decide⟩

/-! ## Inline-citation sanitizing (`rag/pipeline.py`,
`_sanitize_inline_citations` / `_has_any_inline_citation` and the
inline-citation block of `answer_with_rag`, lines 916–920)

`_CITATION_RE` is `\[(\d{1,3})\]`; `re.sub` runs a single left-to-right
pass.  `\d` is modelled as the ASCII digits (the repository's citation
indices).  Fuel-based scanners: fuel = list length always suffices, every
step consumes at least one character. -/

/-- `int(...)` on a 1–3-digit group. -/
def digitsToNat (ds : List Char) : Nat :=
  ds.foldl (fun a c => a * 10 + (c.toNat - '0'.toNat)) 0

/-- Try `\[(\d{1,3})\]` at the head: greedy digits with backtracking is
equivalent to requiring the maximal digit run to have length 1..3 and be
followed by `]` (shorter backtracks put a digit where `]` must be).
Returns (the numeric value, the token text `[d…d]`, the rest). -/
def tryCitationAt (l : List Char) : Option (Nat × List Char × List Char) :=
  match l with
  | [] => none
  | c :: cs =>
    if c = '[' then
      let ds := cs.takeWhile Char.isDigit
      if 1 ≤ ds.length ∧ ds.length ≤ 3 then
        match cs.drop ds.length with
        | [] => none
        | c2 :: rest =>
          if c2 = ']' then some (digitsToNat ds, '[' :: (ds ++ [']']), rest)
          else none
      else none
    else none

/-- The `re.sub` pass of `_sanitize_inline_citations`: each scanned token is
kept verbatim when `1 ≤ n ≤ max_ref`, deleted otherwise; other characters
pass through; scanning resumes after each match. -/
def subCitationsAux (maxRef : Nat) : Nat → List Char → List Char
  | 0, _ => []
  | _ + 1, [] => []
  | fuel + 1, c :: cs =>
    match tryCitationAt (c :: cs) with
    | some (k, tok, rest) =>
      (if 1 ≤ k ∧ k ≤ maxRef then tok else []) ++ subCitationsAux maxRef fuel rest
    | none => c :: subCitationsAux maxRef fuel cs

def subCitations (maxRef : Nat) (l : List Char) : List Char :=
  subCitationsAux maxRef l.length l

/-- `re.sub(r" {2,}", " ", …)`: every maximal run of spaces collapses to a
single space (length-1 runs are left as they are, which is the same). -/
def collapseSpacesAux : Nat → List Char → List Char
  | 0, _ => []
  | _ + 1, [] => []
  | fuel + 1, c :: cs =>
    if c = ' ' then ' ' :: collapseSpacesAux fuel (cs.dropWhile (· = ' '))
    else c :: collapseSpacesAux fuel cs

def collapseSpaces (l : List Char) : List Char := collapseSpacesAux l.length l

/-- `_sanitize_inline_citations`: delete out-of-range 1–3-digit tokens,
collapse space runs, strip. -/
def sanitizeInlineCitations (text : List Char) (maxRef : Nat) : List Char :=
  pyStrip (collapseSpaces (subCitations maxRef text))

/-- `_CITATION_RE.search`: some position carries a 1–3-digit token. -/
def hasCitationAux : Nat → List Char → Bool
  | 0, _ => false
  | _ + 1, [] => false
  | fuel + 1, c :: cs =>
    match tryCitationAt (c :: cs) with
    | some _ => true
    | none => hasCitationAux fuel cs

def hasAnyInlineCitation (l : List Char) : Bool := hasCitationAux l.length l

/-- The disclosure sentence appended when no citation survived. -/
def disclosureNote : List Char :=
  "\n\n（未能在正文中生成引用标记，已在参考中列出来源）".data

/-- The inline-citation block of `answer_with_rag` (lines 916–920), on the
already-stripped chat content: sanitize against the source count, and when
sources exist but no 1–3-digit token remains, append the disclosure note and
strip. -/
def applyInlineCitations (content : List Char) (numSources : Nat) : List Char :=
  let c1 := sanitizeInlineCitations content numSources
  if 0 < numSources ∧ hasAnyInlineCitation c1 = false then
    pyStrip (c1 ++ disclosureNote)
  else c1

/-- Scan-aligned well-formedness of the *input*: every `[` starts a scanned
1–3-digit citation token.  (The hypothesis under which sanitizing cannot
leave or create an out-of-range token.) -/
def goodScanAux : Nat → List Char → Bool
  | 0, l => l.isEmpty
  | _ + 1, [] => true
  | fuel + 1, c :: cs =>
    match tryCitationAt (c :: cs) with
    | some (_, _, rest) => goodScanAux fuel rest
    | none => if c = '[' then false else goodScanAux fuel cs

def goodScan (l : List Char) : Bool := goodScanAux l.length l

/-- Scan-aligned well-formedness of the *output*: every `[` starts a scanned
token whose index lies in `1..maxRef`. -/
def okBracketsAux (maxRef : Nat) : Nat → List Char → Bool
  | 0, l => l.isEmpty
  | _ + 1, [] => true
  | fuel + 1, c :: cs =>
    if c = '[' then
      match tryCitationAt (c :: cs) with
      | some (k, _, rest) =>
        if 1 ≤ k ∧ k ≤ maxRef then okBracketsAux maxRef fuel rest else false
      | none => false
    else okBracketsAux maxRef fuel cs

def okBrackets (maxRef : Nat) (l : List Char) : Bool :=
  okBracketsAux maxRef l.length l

/-! ### Claim C3, counterexample -/

/-- C3, counterexample.  The citation regex matches at most three digits, so
`[1000]` survives sanitizing untouched even with two sources — the sanitized
answer *does* contain a token `[k]` with `k = 1000 ∉ 1..2`; moreover
deleting an out-of-range token can create a new out-of-range token:
sanitizing `[9[2]9]` against one source removes `[2]` and leaves `[99]`
with `99 ∉ 1..1`. -/
theorem sanitize_citations_counterexample :
    sanitizeInlineCitations "答案 [1000]".data 2 = "答案 [1000]".data ∧
    containsSub "[1000]".data (sanitizeInlineCitations "答案 [1000]".data 2) = true ∧
    (1000 ≤ 2) = False ∧
    sanitizeInlineCitations "[9[2]9]".data 1 = "[99]".data ∧
    (99 ≤ 1) = False := by
  refine ⟨by decide, by decide, by decide, by decide, by decide⟩

/-! ### Structure of citation-token matches -/

theorem tryCitationAt_bracket (cs : List Char) :
    tryCitationAt ('[' :: cs) =
      (if 1 ≤ (cs.takeWhile Char.isDigit).length ∧
          (cs.takeWhile Char.isDigit).length ≤ 3 then
        match cs.drop (cs.takeWhile Char.isDigit).length with
        | [] => none
        | c2 :: rest2 =>
          if c2 = ']' then
            some (digitsToNat (cs.takeWhile Char.isDigit),
              '[' :: ((cs.takeWhile Char.isDigit) ++ [']']), rest2)
          else none
      else none) := rfl

theorem tryCitationAt_some {l : List Char} {k : Nat} {tok rest : List Char}
    (h : tryCitationAt l = some (k, tok, rest)) :
    ∃ ds, l = '[' :: (ds ++ ']' :: rest) ∧ tok = '[' :: (ds ++ [']']) ∧
      ds ≠ [] ∧ ds.length ≤ 3 ∧ (∀ c ∈ ds, c.isDigit = true) ∧
      k = digitsToNat ds := by
  cases l with
  | nil => simp [tryCitationAt] at h
  | cons c cs =>
    by_cases hc : c = '['
    case neg => simp [tryCitationAt, hc] at h
    subst hc
    rw [tryCitationAt_bracket] at h
    by_cases hlen : 1 ≤ (cs.takeWhile Char.isDigit).length ∧
        (cs.takeWhile Char.isDigit).length ≤ 3
    case neg =>
      rw [if_neg hlen] at h
      exact absurd h (by simp)
    rw [if_pos hlen] at h
    rcases hdq : cs.drop (cs.takeWhile Char.isDigit).length with _ | ⟨c2, rest2⟩
    · rw [hdq] at h
      dsimp only at h
      exact absurd h (by simp)
    · rw [hdq] at h
      dsimp only at h
      by_cases hc2 : c2 = ']'
      case neg =>
        rw [if_neg hc2] at h
        exact absurd h (by simp)
      rw [if_pos hc2] at h
      subst hc2
      rw [Option.some.injEq] at h
      have hk : digitsToNat (cs.takeWhile Char.isDigit) = k := congrArg Prod.fst h
      have htok : '[' :: ((cs.takeWhile Char.isDigit) ++ [']']) = tok :=
        congrArg (fun p => p.2.1) h
      have hrest : rest2 = rest := congrArg (fun p => p.2.2) h
      refine ⟨cs.takeWhile Char.isDigit, ?_, htok.symm, ?_, hlen.2, ?_, hk.symm⟩
      · obtain ⟨t, ht⟩ := List.takeWhile_prefix (l := cs) (p := Char.isDigit)
        have htt : t = cs.drop (cs.takeWhile Char.isDigit).length := by
          have h5 := congrArg (List.drop (cs.takeWhile Char.isDigit).length) ht
          rw [List.drop_left] at h5
          exact h5
        rw [htt, hdq, hrest] at ht
        exact congrArg (List.cons '[') ht.symm
      · intro he
        rw [he] at hlen
        simp at hlen
      · intro x hx
        exact List.mem_takeWhile_imp hx

theorem tryCitationAt_rest_lt {l : List Char} {k : Nat} {tok rest : List Char}
    (h : tryCitationAt l = some (k, tok, rest)) : rest.length < l.length := by
  obtain ⟨ds, hl, _⟩ := tryCitationAt_some h
  rw [hl]
  simp only [List.length_cons, List.length_append]
  omega

theorem takeWhile_digits_append {ds : List Char} {x : Char} {s : List Char}
    (hd : ∀ c ∈ ds, c.isDigit = true) (hx : x.isDigit = false) :
    ((ds ++ x :: s).takeWhile Char.isDigit) = ds := by
  induction ds with
  | nil =>
    rw [List.nil_append]
    rw [List.takeWhile_cons_of_neg (by rw [hx]; exact Bool.false_ne_true)]
  | cons d ds' ih =>
    rw [List.cons_append,
      List.takeWhile_cons_of_pos (by rw [hd d (by simp)])]
    rw [ih (fun c hc => hd c (by simp [hc]))]

theorem tryCitationAt_token (ds s : List Char) (hne : ds ≠ [])
    (hd : ∀ c ∈ ds, c.isDigit = true) :
    tryCitationAt ('[' :: (ds ++ ']' :: s)) =
      if ds.length ≤ 3 then some (digitsToNat ds, '[' :: (ds ++ [']']), s)
      else none := by
  have htw : ((ds ++ ']' :: s).takeWhile Char.isDigit) = ds :=
    takeWhile_digits_append hd (by decide)
  have hdrop : (ds ++ ']' :: s).drop ds.length = ']' :: s := List.drop_left ds _
  have hone : 1 ≤ ds.length := by
    cases ds with
    | nil => exact absurd rfl hne
    | cons a b => simp
  rw [tryCitationAt_bracket, htw, hdrop]
  by_cases h3 : ds.length ≤ 3
  · rw [if_pos ⟨hone, h3⟩, if_pos h3]
    simp
  · rw [if_neg (fun hcon => h3 hcon.2), if_neg h3]

/-! ### Fuel irrelevance and one-step unfoldings for the scanners -/

theorem subCitationsAux_succ (m f : Nat) (c : Char) (cs : List Char) :
    subCitationsAux m (f + 1) (c :: cs) =
      (match tryCitationAt (c :: cs) with
      | some (k, tok, rest) =>
        (if 1 ≤ k ∧ k ≤ m then tok else []) ++ subCitationsAux m f rest
      | none => c :: subCitationsAux m f cs) := rfl

theorem goodScanAux_succ (f : Nat) (c : Char) (cs : List Char) :
    goodScanAux (f + 1) (c :: cs) =
      (match tryCitationAt (c :: cs) with
      | some (_, _, rest) => goodScanAux f rest
      | none => if c = '[' then false else goodScanAux f cs) := rfl

theorem okBracketsAux_succ (m f : Nat) (c : Char) (cs : List Char) :
    okBracketsAux m (f + 1) (c :: cs) =
      (if c = '[' then
        match tryCitationAt (c :: cs) with
        | some (k, _, rest) =>
          if 1 ≤ k ∧ k ≤ m then okBracketsAux m f rest else false
        | none => false
      else okBracketsAux m f cs) := rfl

theorem collapseSpacesAux_succ (f : Nat) (c : Char) (cs : List Char) :
    collapseSpacesAux (f + 1) (c :: cs) =
      (if c = ' ' then ' ' :: collapseSpacesAux f (cs.dropWhile (· = ' '))
      else c :: collapseSpacesAux f cs) := rfl

theorem subCitationsAux_congr (m : Nat) :
    ∀ (f1 : Nat) (f2 : Nat) (l : List Char), l.length ≤ f1 → l.length ≤ f2 →
      subCitationsAux m f1 l = subCitationsAux m f2 l := by
  intro f1
  induction f1 with
  | zero =>
    intro f2 l h1 _
    have : l = [] := List.length_eq_zero.mp (Nat.le_zero.mp h1)
    subst this
    cases f2 <;> rfl
  | succ f ih =>
    intro f2 l h1 h2
    cases l with
    | nil => cases f2 <;> rfl
    | cons c cs =>
      cases f2 with
      | zero => simp at h2
      | succ g =>
        rw [subCitationsAux_succ m f, subCitationsAux_succ m g]
        rcases hop : tryCitationAt (c :: cs) with _ | ⟨k, tok, rest⟩
        · dsimp only
          rw [ih g cs (by simpa using h1) (by simpa using h2)]
        · have hlt := tryCitationAt_rest_lt hop
          dsimp only
          rw [ih g rest (by simp at h1 hlt ⊢; omega)
            (by simp at h2 hlt ⊢; omega)]

theorem goodScanAux_congr :
    ∀ (f1 : Nat) (f2 : Nat) (l : List Char), l.length ≤ f1 → l.length ≤ f2 →
      goodScanAux f1 l = goodScanAux f2 l := by
  intro f1
  induction f1 with
  | zero =>
    intro f2 l h1 _
    have : l = [] := List.length_eq_zero.mp (Nat.le_zero.mp h1)
    subst this
    cases f2 <;> rfl
  | succ f ih =>
    intro f2 l h1 h2
    cases l with
    | nil => cases f2 <;> rfl
    | cons c cs =>
      cases f2 with
      | zero => simp at h2
      | succ g =>
        rw [goodScanAux_succ f, goodScanAux_succ g]
        rcases hop : tryCitationAt (c :: cs) with _ | ⟨k, tok, rest⟩
        · dsimp only
          rw [ih g cs (by simpa using h1) (by simpa using h2)]
        · have hlt := tryCitationAt_rest_lt hop
          dsimp only
          rw [ih g rest (by simp at h1 hlt ⊢; omega)
            (by simp at h2 hlt ⊢; omega)]

theorem okBracketsAux_congr (m : Nat) :
    ∀ (f1 : Nat) (f2 : Nat) (l : List Char), l.length ≤ f1 → l.length ≤ f2 →
      okBracketsAux m f1 l = okBracketsAux m f2 l := by
  intro f1
  induction f1 with
  | zero =>
    intro f2 l h1 _
    have : l = [] := List.length_eq_zero.mp (Nat.le_zero.mp h1)
    subst this
    cases f2 <;> rfl
  | succ f ih =>
    intro f2 l h1 h2
    cases l with
    | nil => cases f2 <;> rfl
    | cons c cs =>
      cases f2 with
      | zero => simp at h2
      | succ g =>
        rw [okBracketsAux_succ m f, okBracketsAux_succ m g]
        by_cases hc : c = '['
        · rw [if_pos hc, if_pos hc]
          rcases hop : tryCitationAt (c :: cs) with _ | ⟨k, tok, rest⟩
          · rfl
          · have hlt := tryCitationAt_rest_lt hop
            dsimp only
            rw [ih g rest (by simp at h1 hlt ⊢; omega)
              (by simp at h2 hlt ⊢; omega)]
        · rw [if_neg hc, if_neg hc]
          exact ih g cs (by simpa using h1) (by simpa using h2)

theorem collapseSpacesAux_congr :
    ∀ (f1 : Nat) (f2 : Nat) (l : List Char), l.length ≤ f1 → l.length ≤ f2 →
      collapseSpacesAux f1 l = collapseSpacesAux f2 l := by
  intro f1
  induction f1 with
  | zero =>
    intro f2 l h1 _
    have : l = [] := List.length_eq_zero.mp (Nat.le_zero.mp h1)
    subst this
    cases f2 <;> rfl
  | succ f ih =>
    intro f2 l h1 h2
    cases l with
    | nil => cases f2 <;> rfl
    | cons c cs =>
      cases f2 with
      | zero => simp at h2
      | succ g =>
        rw [collapseSpacesAux_succ f, collapseSpacesAux_succ g]
        by_cases hc : c = ' '
        · rw [if_pos hc, if_pos hc]
          have hle := (List.dropWhile_sublist (p := fun x => x = ' ') (l := cs)).length_le
          rw [ih g (cs.dropWhile (· = ' '))
            (by simp at h1 ⊢; omega) (by simp at h2 ⊢; omega)]
        · rw [if_neg hc, if_neg hc]
          rw [ih g cs (by simpa using h1) (by simpa using h2)]

/-! ### One-step unfoldings of the scanner wrappers -/

theorem subCitations_cons_none {m : Nat} {c : Char} {cs : List Char}
    (h : tryCitationAt (c :: cs) = none) :
    subCitations m (c :: cs) = c :: subCitations m cs := by
  unfold subCitations
  rw [show (c :: cs).length = cs.length + 1 from rfl, subCitationsAux_succ, h]

theorem subCitations_some {m : Nat} {l : List Char} {k : Nat}
    {tok rest : List Char} (h : tryCitationAt l = some (k, tok, rest)) :
    subCitations m l =
      (if 1 ≤ k ∧ k ≤ m then tok else []) ++ subCitations m rest := by
  cases l with
  | nil => simp [tryCitationAt] at h
  | cons c cs =>
    unfold subCitations
    rw [show (c :: cs).length = cs.length + 1 from rfl, subCitationsAux_succ, h]
    dsimp only
    have hlt := tryCitationAt_rest_lt h
    rw [subCitationsAux_congr m cs.length rest.length rest
      (by simp at hlt; omega) (le_refl _)]

theorem goodScan_cons_none {c : Char} {cs : List Char}
    (h : tryCitationAt (c :: cs) = none) :
    goodScan (c :: cs) = if c = '[' then false else goodScan cs := by
  unfold goodScan
  rw [show (c :: cs).length = cs.length + 1 from rfl, goodScanAux_succ, h]

theorem goodScan_some {l : List Char} {k : Nat} {tok rest : List Char}
    (h : tryCitationAt l = some (k, tok, rest)) :
    goodScan l = goodScan rest := by
  cases l with
  | nil => simp [tryCitationAt] at h
  | cons c cs =>
    unfold goodScan
    rw [show (c :: cs).length = cs.length + 1 from rfl, goodScanAux_succ, h]
    have hlt := tryCitationAt_rest_lt h
    exact goodScanAux_congr cs.length rest.length rest
      (by simp at hlt; omega) (le_refl _)

theorem okBrackets_cons_not_bracket {m : Nat} {c : Char} {cs : List Char}
    (hc : c ≠ '[') : okBrackets m (c :: cs) = okBrackets m cs := by
  unfold okBrackets
  rw [show (c :: cs).length = cs.length + 1 from rfl, okBracketsAux_succ,
    if_neg hc]

theorem okBrackets_bracket {m : Nat} {cs : List Char} :
    okBrackets m ('[' :: cs) =
      (match tryCitationAt ('[' :: cs) with
      | some (k, _, rest) =>
        if 1 ≤ k ∧ k ≤ m then okBrackets m rest else false
      | none => false) := by
  unfold okBrackets
  rw [show ('[' :: cs).length = cs.length + 1 from rfl, okBracketsAux_succ,
    if_pos rfl]
  rcases hop : tryCitationAt ('[' :: cs) with _ | ⟨k, tok, rest⟩
  · rfl
  · have hlt := tryCitationAt_rest_lt hop
    dsimp only
    rw [okBracketsAux_congr m cs.length rest.length rest
      (by simp at hlt; omega) (le_refl _)]

theorem collapseSpaces_cons_space {cs : List Char} :
    collapseSpaces (' ' :: cs) =
      ' ' :: collapseSpaces (cs.dropWhile (· = ' ')) := by
  unfold collapseSpaces
  rw [show (' ' :: cs).length = cs.length + 1 from rfl, collapseSpacesAux_succ,
    if_pos rfl]
  have hle := (List.dropWhile_sublist (p := fun x => x = ' ') (l := cs)).length_le
  rw [collapseSpacesAux_congr cs.length (cs.dropWhile (· = ' ')).length _
    hle (le_refl _)]

theorem collapseSpaces_cons_not_space {c : Char} {cs : List Char} (hc : c ≠ ' ') :
    collapseSpaces (c :: cs) = c :: collapseSpaces cs := by
  unfold collapseSpaces
  rw [show (c :: cs).length = cs.length + 1 from rfl, collapseSpacesAux_succ,
    if_neg hc]

/-! ### Sanitizing preserves bracket well-formedness -/

theorem okBrackets_token {m : Nat} (ds X : List Char) (hne : ds ≠ [])
    (hd : ∀ c ∈ ds, c.isDigit = true) (h3 : ds.length ≤ 3) :
    okBrackets m ('[' :: (ds ++ ']' :: X)) =
      if 1 ≤ digitsToNat ds ∧ digitsToNat ds ≤ m then okBrackets m X
      else false := by
  rw [okBrackets_bracket, tryCitationAt_token ds X hne hd, if_pos h3]

/-- The `re.sub` pass turns a good-scan text into one whose every `[` starts
an in-range token. -/
theorem goodScan_okBrackets_aux (m : Nat) :
    ∀ (n : Nat) (l : List Char), l.length ≤ n →
      goodScan l = true → okBrackets m (subCitations m l) = true := by
  intro n
  induction n with
  | zero =>
    intro l h1 _
    have : l = [] := List.length_eq_zero.mp (Nat.le_zero.mp h1)
    subst this
    rfl
  | succ n ih =>
    intro l h1 hg
    cases l with
    | nil => rfl
    | cons c cs =>
      rcases hop : tryCitationAt (c :: cs) with _ | ⟨k, tok, rest⟩
      · rw [goodScan_cons_none hop] at hg
        by_cases hc : c = '['
        · rw [if_pos hc] at hg
          exact absurd hg (by simp)
        · rw [if_neg hc] at hg
          rw [subCitations_cons_none hop, okBrackets_cons_not_bracket hc]
          exact ih cs (by simpa using h1) hg
      · rw [goodScan_some hop] at hg
        rw [subCitations_some hop]
        obtain ⟨ds, hl, htok, hne, h3, hd, hk⟩ := tryCitationAt_some hop
        have hrest_le : rest.length ≤ n := by
          have := tryCitationAt_rest_lt hop
          simp at this h1
          omega
        by_cases hrange : 1 ≤ k ∧ k ≤ m
        · rw [if_pos hrange, htok]
          have hassoc : ('[' :: (ds ++ [']'])) ++ subCitations m rest =
              '[' :: (ds ++ ']' :: subCitations m rest) := by
            simp
          rw [hassoc, okBrackets_token ds _ hne hd h3,
            if_pos (by rw [← hk]; exact hrange)]
          exact ih rest hrest_le hg
        · rw [if_neg hrange, List.nil_append]
          exact ih rest hrest_le hg

/-- Inversion of `okBrackets` at a `[`. -/
theorem okBrackets_bracket_inv {m : Nat} {cs : List Char}
    (h : okBrackets m ('[' :: cs) = true) :
    ∃ k tok rest, tryCitationAt ('[' :: cs) = some (k, tok, rest) ∧
      (1 ≤ k ∧ k ≤ m) ∧ okBrackets m rest = true := by
  rw [okBrackets_bracket] at h
  rcases hop : tryCitationAt ('[' :: cs) with _ | ⟨k, tok, rest⟩
  · rw [hop] at h
    exact absurd h (by simp)
  · rw [hop] at h
    dsimp only at h
    by_cases hrange : 1 ≤ k ∧ k ≤ m
    · rw [if_pos hrange] at h
      exact ⟨k, tok, rest, rfl, hrange, h⟩
    · rw [if_neg hrange] at h
      exact absurd h (by simp)

/-- `collapseSpaces` passes a space-free prefix through unchanged. -/
theorem collapseSpaces_nonspace_prefix :
    ∀ (ds : List Char), (∀ c ∈ ds, c ≠ ' ') → ∀ X,
      collapseSpaces (ds ++ X) = ds ++ collapseSpaces X := by
  intro ds
  induction ds with
  | nil => intro _ X; simp
  | cons d ds' ih =>
    intro hd X
    rw [List.cons_append, collapseSpaces_cons_not_space (hd d (by simp))]
    rw [ih (fun c hc => hd c (by simp [hc])) X, List.cons_append]

/-- Dropping a prefix of non-`[` characters preserves `okBrackets`. -/
theorem okBrackets_dropWhile {m : Nat} (p : Char → Bool)
    (hp : ∀ c, p c = true → c ≠ '[') :
    ∀ (l : List Char), okBrackets m l = true →
      okBrackets m (l.dropWhile p) = true := by
  intro l
  induction l with
  | nil => intro h; exact h
  | cons c cs ih =>
    intro h
    by_cases hc : p c = true
    · rw [List.dropWhile_cons_of_pos hc]
      rw [okBrackets_cons_not_bracket (hp c hc)] at h
      exact ih h
    · rw [List.dropWhile_cons_of_neg hc]
      exact h

/-- Collapsing space runs preserves bracket well-formedness. -/
theorem okBrackets_collapse_aux (m : Nat) :
    ∀ (n : Nat) (l : List Char), l.length ≤ n →
      okBrackets m l = true → okBrackets m (collapseSpaces l) = true := by
  intro n
  induction n with
  | zero =>
    intro l h1 _
    have : l = [] := List.length_eq_zero.mp (Nat.le_zero.mp h1)
    subst this
    rfl
  | succ n ih =>
    intro l h1 hok
    cases l with
    | nil => rfl
    | cons c cs =>
      by_cases hc : c = '['
      · subst hc
        obtain ⟨k, tok, rest, hop, hrange, hrest⟩ := okBrackets_bracket_inv hok
        obtain ⟨ds, hl, htok, hne, h3, hd, hk⟩ := tryCitationAt_some hop
        have hcs : cs = ds ++ ']' :: rest := by
          have := congrArg List.tail hl
          simpa using this
        have hrest_le : rest.length ≤ n := by
          have := tryCitationAt_rest_lt hop
          simp at this h1
          omega
        rw [hcs, collapseSpaces_cons_not_space (by decide)]
        have hpre : collapseSpaces (ds ++ ']' :: rest) =
            (ds ++ [']']) ++ collapseSpaces rest := by
          have h5 : ds ++ ']' :: rest = (ds ++ [']']) ++ rest := by simp
          rw [h5]
          exact collapseSpaces_nonspace_prefix (ds ++ [']'])
            (by
              intro x hx
              rcases List.mem_append.mp hx with hx' | hx'
              · have := hd x hx'
                intro he
                rw [he] at this
                exact absurd this (by decide)
              · have : x = ']' := by simpa using hx'
                rw [this]
                decide) rest
        rw [hpre]
        have hassoc : '[' :: ((ds ++ [']']) ++ collapseSpaces rest) =
            '[' :: (ds ++ ']' :: collapseSpaces rest) := by simp
        rw [hassoc, okBrackets_token ds _ hne hd h3,
          if_pos (by rw [← hk]; exact hrange)]
        exact ih rest hrest_le hrest
      · rw [okBrackets_cons_not_bracket hc] at hok
        by_cases hsp : c = ' '
        · subst hsp
          rw [collapseSpaces_cons_space]
          rw [okBrackets_cons_not_bracket (by decide)]
          have h6 := okBrackets_dropWhile (fun x => x = ' ')
            (by
              intro x hx
              have : x = ' ' := by simpa using hx
              rw [this]
              decide) cs hok
          have hle := (List.dropWhile_sublist (p := fun x => x = ' ')
            (l := cs)).length_le
          exact ih (cs.dropWhile (· = ' ')) (by simp at h1; omega) h6
        · rw [collapseSpaces_cons_not_space hsp,
            okBrackets_cons_not_bracket hc]
          exact ih cs (by simpa using h1) hok

/-- Removing a trailing run of whitespace preserves `okBrackets`
(no citation token contains whitespace, so tokens never straddle the cut). -/
theorem okBrackets_append_ws_aux (m : Nat) :
    ∀ (n : Nat) (l t : List Char), l.length ≤ n →
      (∀ c ∈ t, pyIsSpace c = true) →
      okBrackets m (l ++ t) = true → okBrackets m l = true := by
  intro n
  induction n with
  | zero =>
    intro l t h1 _ _
    have : l = [] := List.length_eq_zero.mp (Nat.le_zero.mp h1)
    subst this
    rfl
  | succ n ih =>
    intro l t h1 hws hok
    cases l with
    | nil => rfl
    | cons c cs =>
      rw [List.cons_append] at hok
      by_cases hc : c = '['
      · subst hc
        obtain ⟨k, tok, rest', hop, hrange, hrest'⟩ := okBrackets_bracket_inv hok
        obtain ⟨ds, hl, htok, hne, h3, hd, hk⟩ := tryCitationAt_some hop
        have hcs : cs ++ t = ds ++ ']' :: rest' := by
          have := congrArg List.tail hl
          simpa using this
        rcases List.append_eq_append_iff.mp hcs with ⟨a', ha1, ha2⟩ | ⟨c', hc1, hc2⟩
        · -- ds = cs ++ a' and t = a' ++ ']' :: rest' : the `]` would be whitespace
          exfalso
          have : (']' : Char) ∈ t := by
            rw [ha2]
            simp
          have := hws ']' this
          exact absurd this (by decide)
        · -- cs = ds ++ c' and ']' :: rest' = c' ++ t
          cases c' with
          | nil =>
            exfalso
            have ht : t = ']' :: rest' := by simpa using hc2.symm
            have : (']' : Char) ∈ t := by
              rw [ht]
              simp
            have := hws ']' this
            exact absurd this (by decide)
          | cons e c'' =>
            rw [List.cons_append] at hc2
            injection hc2 with he hrest2
            subst he
            have hcs2 : cs = ds ++ ']' :: c'' := by
              rw [hc1]
            have hlen : c''.length ≤ n := by
              rw [hcs2] at h1
              simp at h1
              omega
            have hok2 : okBrackets m c'' = true := by
              refine ih c'' t hlen hws ?_
              rw [← hrest2]
              exact hrest'
            rw [hcs2, okBrackets_token ds _ hne hd h3,
              if_pos (by rw [← hk]; exact hrange)]
            exact hok2
      · rw [okBrackets_cons_not_bracket hc] at hok
        rw [okBrackets_cons_not_bracket hc]
        exact ih cs t (by simpa using h1) hws hok

/-- `pyStrip` preserves bracket well-formedness. -/
theorem okBrackets_pyStrip {m : Nat} {l : List Char}
    (h : okBrackets m l = true) : okBrackets m (pyStrip l) = true := by
  have hdrop : okBrackets m (l.dropWhile pyIsSpace) = true :=
    okBrackets_dropWhile pyIsSpace
      (by
        intro c hc he
        rw [he] at hc
        exact absurd hc (by decide)) l h
  set l0 := l.dropWhile pyIsSpace with hl0
  have hsplit : l0 = pyStrip l ++ (l0.reverse.takeWhile pyIsSpace).reverse := by
    have h7 : l0.reverse.takeWhile pyIsSpace ++ l0.reverse.dropWhile pyIsSpace =
        l0.reverse := List.takeWhile_append_dropWhile pyIsSpace l0.reverse
    have h8 := congrArg List.reverse h7
    rw [List.reverse_append, List.reverse_reverse] at h8
    have hps : pyStrip l = (l0.reverse.dropWhile pyIsSpace).reverse := by
      rw [hl0]
      rfl
    rw [hps]
    exact h8.symm
  have hws : ∀ c ∈ (l0.reverse.takeWhile pyIsSpace).reverse, pyIsSpace c = true := by
    intro c hc
    rw [List.mem_reverse] at hc
    exact List.mem_takeWhile_imp hc
  refine okBrackets_append_ws_aux m (pyStrip l).length (pyStrip l) _
    (le_refl _) hws ?_
  rw [← hsplit]
  exact hdrop

/-! ### From scan well-formedness to the substring property -/

/-- Splitting an equation `b ++ y :: v = p ++ x :: u` when `x` does not
occur in `b ++ [y]`: the `x`-split must lie strictly inside `v`. -/
theorem split_after :
    ∀ (b : List Char) (y : Char) (v p : List Char) (x : Char) (u : List Char),
      b ++ y :: v = p ++ x :: u → (∀ ch ∈ b ++ [y], ch ≠ x) →
      ∃ p2, p = b ++ y :: p2 ∧ v = p2 ++ x :: u := by
  intro b
  induction b with
  | nil =>
    intro y v p x u heq hne
    cases p with
    | nil =>
      exfalso
      have : y = x := by
        have := congrArg List.head? heq
        simpa using this
      exact hne y (by simp) this
    | cons q p1 =>
      rw [List.nil_append] at heq
      rw [List.cons_append] at heq
      injection heq with h1 h2
      exact ⟨p1, by rw [List.nil_append, h1], h2⟩
  | cons c b' ih =>
    intro y v p x u heq hne
    cases p with
    | nil =>
      exfalso
      have : c = x := by
        have := congrArg List.head? heq
        simpa using this
      exact hne c (by simp) this
    | cons q p1 =>
      rw [List.cons_append, List.cons_append] at heq
      injection heq with h1 h2
      obtain ⟨p2, hp1, hv⟩ := ih y v p1 x u h2
        (fun ch hch => hne ch (by
          rcases List.mem_append.mp hch with h' | h'
          · exact List.mem_append.mpr (Or.inl (List.mem_cons.mpr (Or.inr h')))
          · exact List.mem_append.mpr (Or.inr h')))
      exact ⟨p2, by rw [hp1, ← h1, List.cons_append], hv⟩

/-- A bracket-well-formed text contains no bracketed digit run (of *any*
length) whose value lies outside `1..m`. -/
theorem okBrackets_no_bad_token (m : Nat) :
    ∀ (n : Nat) (l : List Char), l.length ≤ n → okBrackets m l = true →
      ∀ p d s, l = p ++ '[' :: (d ++ ']' :: s) → d ≠ [] →
        (∀ c ∈ d, c.isDigit = true) →
        1 ≤ digitsToNat d ∧ digitsToNat d ≤ m := by
  intro n
  induction n with
  | zero =>
    intro l h1 _ p d s hl _ _
    have : l = [] := List.length_eq_zero.mp (Nat.le_zero.mp h1)
    subst this
    exact absurd hl.symm (by simp)
  | succ n ih =>
    intro l h1 hok p d s hl hdne hdd
    cases p with
    | nil =>
      rw [List.nil_append] at hl
      subst hl
      obtain ⟨k, tok, rest', hop, hrange, _⟩ := okBrackets_bracket_inv hok
      rw [tryCitationAt_token d s hdne hdd] at hop
      by_cases h3 : d.length ≤ 3
      · rw [if_pos h3] at hop
        have hk : digitsToNat d = k := by
          injection hop with h5
          exact congrArg Prod.fst h5
        rw [hk]
        exact hrange
      · rw [if_neg h3] at hop
        exact absurd hop (by simp)
    | cons c p' =>
      rw [List.cons_append] at hl
      have hcs : l = c :: (p' ++ '[' :: (d ++ ']' :: s)) := hl
      by_cases hc : c = '['
      · subst hc
        rw [hcs] at hok
        obtain ⟨k, tok, rest', hop, hrange, hrest'⟩ := okBrackets_bracket_inv hok
        obtain ⟨ds, hl2, htok, hne, h3, hd, hk⟩ := tryCitationAt_some hop
        have hmid : p' ++ '[' :: (d ++ ']' :: s) = ds ++ ']' :: rest' := by
          have := congrArg List.tail hl2
          simpa using this
        obtain ⟨p2, hp', hrest2⟩ := split_after ds ']' rest'
          p' '[' (d ++ ']' :: s) hmid.symm
          (by
            intro ch hch he
            rcases List.mem_append.mp hch with h' | h'
            · have := hd ch h'
              rw [he] at this
              exact absurd this (by decide)
            · have : ch = ']' := by simpa using h'
              rw [he] at this
              exact absurd this (by decide))
        have hlen : rest'.length ≤ n := by
          have := tryCitationAt_rest_lt hop
          rw [hcs] at h1
          simp at this h1
          omega
        exact ih rest' hlen hrest' p2 d s hrest2 hdne hdd
      · rw [hcs] at hok h1
        rw [okBrackets_cons_not_bracket hc] at hok
        exact ih (p' ++ '[' :: (d ++ ']' :: s)) (by simp at h1 ⊢; omega) hok
          p' d s rfl hdne hdd

/-! ### Claim C3, amended -/

/-- C3, amended.  For every answer in which every `[` begins a scanned
1–3-digit citation token (`goodScan`), the sanitized answer is again
bracket-well-formed and contains *no* bracketed digit run `[k]` — of any
length — with `k` outside `1..N`; in general 4-or-more-digit tokens survive
and deletions can create new out-of-range tokens (see the counterexample).
Unconditionally, when sources exist and no 1–3-digit token remains after
sanitizing, the disclosure sentence is appended (and the result stripped),
and when a token remains the sanitized answer is returned as is. -/
theorem sanitize_citations_amended (content : List Char) (N : Nat)
    (hgood : goodScan content = true) :
    okBrackets N (sanitizeInlineCitations content N) = true ∧
    (∀ p d s, sanitizeInlineCitations content N = p ++ '[' :: (d ++ ']' :: s) →
      d ≠ [] → (∀ c ∈ d, c.isDigit = true) →
      1 ≤ digitsToNat d ∧ digitsToNat d ≤ N) ∧
    (∀ numSources, 0 < numSources →
      hasAnyInlineCitation (sanitizeInlineCitations content numSources) = false →
      applyInlineCitations content numSources =
        pyStrip (sanitizeInlineCitations content numSources ++ disclosureNote)) ∧
    (∀ numSources,
      hasAnyInlineCitation (sanitizeInlineCitations content numSources) = true →
      applyInlineCitations content numSources =
        sanitizeInlineCitations content numSources) := by
  have hok : okBrackets N (sanitizeInlineCitations content N) = true := by
    unfold sanitizeInlineCitations
    exact okBrackets_pyStrip (okBrackets_collapse_aux N
      (subCitations N content).length _ (le_refl _)
      (goodScan_okBrackets_aux N content.length content (le_refl _) hgood))
  refine ⟨hok, ?_, ?_, ?_⟩
  · intro p d s hdecomp hdne hdd
    exact okBrackets_no_bad_token N (sanitizeInlineCitations content N).length
      _ (le_refl _) hok p d s hdecomp hdne hdd
  · intro ns hns hno
    show (if 0 < ns ∧
        hasAnyInlineCitation (sanitizeInlineCitations content ns) = false then
        pyStrip (sanitizeInlineCitations content ns ++ disclosureNote)
      else sanitizeInlineCitations content ns) = _
    rw [if_pos ⟨hns, hno⟩]
  · intro ns hyes
    show (if 0 < ns ∧
        hasAnyInlineCitation (sanitizeInlineCitations content ns) = false then
        pyStrip (sanitizeInlineCitations content ns ++ disclosureNote)
      else sanitizeInlineCitations content ns) = _
    rw [if_neg (fun hcon => by
      rw [hyes] at hcon
      exact absurd hcon.2 (by simp))]

set_option maxRecDepth 100000 in
/-- C3, witness for the amended theorem: a well-formed answer with one
in-range and one out-of-range citation sanitizes to a bracket-well-formed
text, and a citation-free answer with sources gets the disclosure note. -/
theorem sanitize_citations_amended_witness :
    okBrackets 2 (sanitizeInlineCitations "见 [1] 引用 [9]。".data 2) = true ∧
    applyInlineCitations "无引用回答".data 3 =
      pyStrip (sanitizeInlineCitations "无引用回答".data 3 ++ disclosureNote) :=
  ⟨(sanitize_citations_amended "见 [1] 引用 [9]。".data 2 (by decide)).1,
    (sanitize_citations_amended "无引用回答".data 3 (by decide)).2.2.1 3
      (by decide) (by decide)⟩

end OnekeyRag
